import Mathlib

/-!
Shallow embedding of the chatbot repository's core components, and proofs of
the specification claims about them.

Python strings are modelled as `List Char` (Python indexes by code point),
Python ints as `Int`/`Nat`, Python floats as `ℚ` (exact arithmetic standing in
for IEEE arithmetic), and Python exceptions as explicit sum types.  While
loops are modelled as structurally recursive functions on an explicit fuel
argument that equals the loop's an obvious variant at the call site, so every
definition is executable.
-/

deriving instance DecidableEq for Except

namespace PyStr

/-- Python `str.isspace` / `str.strip` whitespace character class. -/
def pyIsSpace (c : Char) : Bool :=
  let n := c.toNat
  n == 0x20 || (decide (0x9 ≤ n) && decide (n ≤ 0xd)) ||
    (decide (0x1c ≤ n) && decide (n ≤ 0x1f)) || n == 0x85 || n == 0xa0 ||
    n == 0x1680 || (decide (0x2000 ≤ n) && decide (n ≤ 0x200a)) ||
    n == 0x2028 || n == 0x2029 || n == 0x202f || n == 0x205f || n == 0x3000

/-- Line-boundary characters recognised by Python `str.splitlines`. -/
def pyIsLineBreak (c : Char) : Bool :=
  let n := c.toNat
  n == 0xa || n == 0xd || n == 0xb || n == 0xc || n == 0x1c || n == 0x1d ||
    n == 0x1e || n == 0x85 || n == 0x2028 || n == 0x2029

/-- Python slice `t[a:b]` (for `0 ≤ a, b`; out-of-range indices clamp). -/
def pySlice (t : List Char) (a b : ℕ) : List Char :=
  (t.drop a).take (b - a)

/-- `str.splitlines(keepends=True)`: the accumulator holds the current line;
a `"\\r\\n"` pair counts as a single boundary, kept with its line. -/
def splitLinesAux : List Char → List Char → List (List Char)
  | [], acc => if acc = [] then [] else [acc]
  | c :: rest, acc =>
    match rest with
    | c2 :: rest2 =>
      if c = '\r' ∧ c2 = '\n' then (acc ++ ['\r', '\n']) :: splitLinesAux rest2 []
      else if pyIsLineBreak c then (acc ++ [c]) :: splitLinesAux (c2 :: rest2) []
      else splitLinesAux (c2 :: rest2) (acc ++ [c])
    | [] =>
      if pyIsLineBreak c then (acc ++ [c]) :: splitLinesAux [] []
      else splitLinesAux [] (acc ++ [c])

/-- Python `text.splitlines(keepends=True)`. -/
def splitLines (t : List Char) : List (List Char) :=
  splitLinesAux t []

/-- `not line.strip()`: a line is blank iff all its characters are whitespace. -/
def pyIsBlank (l : List Char) : Bool :=
  l.all pyIsSpace

end PyStr

namespace Chunking

open PyStr

/-- `Chunk.metadata` dict built by `simple_paragraph_chunk`. -/
structure ChunkMeta where
  doc_id : String
  para : ℕ
  start_idx : ℕ
  end_idx : ℕ
  local_start : ℕ
  local_end : ℕ
  deriving Repr, DecidableEq, Inhabited

/-- The `Chunk` dataclass of `src/utils/chunking.py`. -/
structure Chunk where
  doc_id : String
  chunk_id : String
  text : List Char
  start_idx : ℕ
  end_idx : ℕ
  metadata : ChunkMeta
  deriving Repr, DecidableEq, Inhabited

/-- A paragraph as produced by `_iter_paragraphs`: (text, start offset, index). -/
structure Para where
  text : List Char
  start : ℕ
  index : ℕ
  deriving Repr, DecidableEq

/-- Loop state of `_iter_paragraphs`. -/
structure ParaState where
  pos : ℕ
  para_start : Option ℕ
  buffer : List Char
  para_index : ℕ
  paragraphs : List Para
  deriving Repr

/-- One iteration of the `for line in lines` loop in `_iter_paragraphs`. -/
def iterParaStep (st : ParaState) (line : List Char) : ParaState :=
  if pyIsBlank line then
    if st.buffer ≠ [] then
      { pos := st.pos + line.length
        para_start := none
        buffer := []
        para_index := st.para_index + 1
        paragraphs := st.paragraphs ++
          [⟨st.buffer, st.para_start.getD 0, st.para_index⟩] }
    else
      { st with pos := st.pos + line.length }
  else
    { st with
        para_start := if st.buffer = [] then some st.pos else st.para_start
        buffer := st.buffer ++ line
        pos := st.pos + line.length }

/-- `_iter_paragraphs(text)`. -/
def iterParagraphs (t : List Char) : List Para :=
  let final := (splitLines t).foldl iterParaStep ⟨0, none, [], 0, []⟩
  if final.buffer ≠ [] then
    final.paragraphs ++ [⟨final.buffer, final.para_start.getD 0, final.para_index⟩]
  else
    final.paragraphs

/-- The sentence-boundary characters `_BOUNDARY_CHARS`. -/
def boundaryChars : List Char :=
  ['.', '!', '?', '。', '！', '？', ';', '；', ':', '：']

/-- Fuelled form of the first `while` loop of `_trim_span`
(`while start < end and text[start].isspace(): start += 1`). -/
def trimLeftF (t : List Char) : ℕ → ℕ → ℕ → ℕ
  | 0, s, _ => s
  | fuel + 1, s, e =>
    if s < e ∧ pyIsSpace (t.getD s ' ') then trimLeftF t fuel (s + 1) e else s

/-- Fuelled form of the second `while` loop of `_trim_span`
(`while end > start and text[end-1].isspace(): end -= 1`). -/
def trimRightF (t : List Char) : ℕ → ℕ → ℕ → ℕ
  | 0, _, e => e
  | fuel + 1, s, e =>
    if e > s ∧ pyIsSpace (t.getD (e - 1) ' ') then trimRightF t fuel s (e - 1) else e

/-- `_trim_span(text, start, end)`. -/
def trimSpan (t : List Char) (s e : ℕ) : ℕ × ℕ :=
  let s' := trimLeftF t (e - s) s e
  (s', trimRightF t (e - s') s' e)

/-- A sentence-segment span `(start_idx, end_idx, para_index)`. -/
structure Span where
  start : ℕ
  stop : ℕ
  para : ℕ
  deriving Repr, DecidableEq, Inhabited

/-- The pieces `[local_start, local_end)` cut by the `for idx, ch in
enumerate(para_text)` loop of `_segment_spans`: one piece per boundary
character, plus the final `local_start < len(para_text)` piece. -/
def piecesAux : List Char → ℕ → ℕ → List (ℕ × ℕ)
  | [], i, ls => if ls < i then [(ls, i)] else []
  | c :: rest, i, ls =>
    if c ∈ boundaryChars then (ls, i + 1) :: piecesAux rest (i + 1) (i + 1)
    else piecesAux rest (i + 1) ls

/-- All pieces of one paragraph text. -/
def pieces (para : List Char) : List (ℕ × ℕ) :=
  piecesAux para 0 0

/-- The spans contributed by one paragraph in `_segment_spans`: each piece is
trimmed against the whole text and kept when `end_idx > start_idx`. -/
def paraSpans (t : List Char) (p : Para) : List Span :=
  (pieces p.text).foldl
    (fun acc piece =>
      let se := trimSpan t (p.start + piece.1) (p.start + piece.2)
      if se.2 > se.1 then acc ++ [⟨se.1, se.2, p.index⟩] else acc)
    []

/-- `_segment_spans(text)`. -/
def segmentSpans (t : List Char) : List Span :=
  let spans := (iterParagraphs t).foldl (fun acc p => acc ++ paraSpans t p) []
  if spans = [] ∧ t.any (fun c => ¬ pyIsSpace c) then
    let se := trimSpan t 0 t.length
    if se.2 > se.1 then [⟨se.1, se.2, 0⟩] else []
  else spans

/-- Fuelled form of the `while para_end < len(spans) and spans[para_end][2] ==
para_index` loop in `simple_paragraph_chunk`. -/
def paraEndF (spans : List Span) (pi : ℕ) : ℕ → ℕ → ℕ
  | 0, j => j
  | fuel + 1, j =>
    if j < spans.length ∧ (spans.getD j default).para = pi then
      paraEndF spans pi fuel (j + 1)
    else j

/-- Fuelled form of the greedy packing loop (`while next_idx < para_end and
spans[next_idx][1] - start_idx <= max_chars`); returns `(next_idx, end_idx)`. -/
def packF (spans : List Span) (start : ℕ) (max_chars : ℤ) (para_end : ℕ) :
    ℕ → ℕ → ℕ → ℕ × ℕ
  | 0, j, e => (j, e)
  | fuel + 1, j, e =>
    if j < para_end ∧ ((spans.getD j default).stop : ℤ) - (start : ℤ) ≤ max_chars then
      packF spans start max_chars para_end fuel (j + 1) (spans.getD j default).stop
    else (j, e)

/-- Fuelled form of the overlap walk-back loop (`while back_idx >= idx and
overlap_len < overlap`); returns the final `back_idx`. -/
def backWalkF (spans : List Span) (idx : ℕ) (overlap : ℤ) :
    ℕ → ℤ → ℤ → ℤ
  | 0, b, _ => b
  | fuel + 1, b, ol =>
    if b ≥ (idx : ℤ) ∧ ol < overlap then
      backWalkF spans idx overlap fuel (b - 1)
        (ol + ((spans.getD b.toNat default).stop - (spans.getD b.toNat default).start : ℤ))
    else b

/-- Fuelled form of the main `while idx < len(spans)` loop of
`simple_paragraph_chunk`. -/
def chunkLoopF (t : List Char) (doc_id : String) (max_chars overlap : ℤ)
    (spans : List Span) : ℕ → ℕ → List Chunk
  | 0, _ => []
  | fuel + 1, idx =>
    if idx < spans.length then
      let sp := spans.getD idx default
      let para_end := paraEndF spans sp.para (spans.length - idx) idx
      let pk := packF spans sp.start max_chars para_end (para_end - (idx + 1)) (idx + 1)
        (max sp.stop sp.start)
      let next_idx := pk.1
      let end_idx := pk.2
      let chunk : Chunk :=
        { doc_id := doc_id
          chunk_id := doc_id ++ "-" ++ toString idx ++ "-" ++ toString sp.start
          text := pySlice t sp.start end_idx
          start_idx := sp.start
          end_idx := end_idx
          metadata :=
            { doc_id := doc_id
              para := sp.para
              start_idx := sp.start
              end_idx := end_idx
              local_start := 0
              local_end := end_idx - sp.start } }
      if next_idx ≥ para_end then
        chunk :: chunkLoopF t doc_id max_chars overlap spans fuel para_end
      else if overlap ≤ 0 then
        chunk :: chunkLoopF t doc_id max_chars overlap spans fuel next_idx
      else
        let back_idx := backWalkF spans idx overlap (next_idx - idx) ((next_idx : ℤ) - 1) 0
        let next_start := max (back_idx + 1) ((idx : ℤ) + 1)
        chunk :: chunkLoopF t doc_id max_chars overlap spans fuel next_start.toNat
    else []

/-- `simple_paragraph_chunk(text, doc_id, max_chars, overlap)`. -/
def simple_paragraph_chunk (t : List Char) (doc_id : String)
    (max_chars overlap : ℤ) : List Chunk :=
  let spans := segmentSpans t
  if spans = [] then []
  else chunkLoopF t doc_id max_chars overlap spans spans.length 0

/-- The spec's own chunking scenario text `"A. B. C."`. -/
def demoText : List Char := "A. B. C.".toList

/-- A document whose only uncovered positions are whitespace: `"a\n\nb"`. -/
def demo6Text : List Char := ['a', '\n', '\n', 'b']

/-- A single unsplittable segment longer than `max_chars = 3`. -/
def demoLong : List Char := "abcdef.".toList

end Chunking

namespace Breaker

/-- The three states of `_CircuitBreaker` (`"closed"`, `"open"`, `"half_open"`). -/
inductive CBState
  | closed
  | opened
  | half_open
  deriving DecidableEq, Repr

/-- The mutable fields of `_CircuitBreaker`; the injected monotonic clock is
modelled by passing `now` explicitly to each method. -/
structure CircuitBreaker where
  failure_count : ℤ
  state : CBState
  opened_at : ℚ
  deriving DecidableEq, Repr

/-- `_CircuitBreaker.__init__`. -/
def initBreaker : CircuitBreaker := ⟨0, .closed, 0⟩

/-- `_CircuitBreaker.reset`. -/
def reset (_cb : CircuitBreaker) : CircuitBreaker := ⟨0, .closed, 0⟩

/-- `_CircuitBreaker.should_skip(threshold, reset_seconds)`: returns the bool
result and the updated breaker. -/
def should_skip (cb : CircuitBreaker) (now : ℚ) (threshold : ℤ)
    (reset_seconds : ℚ) : Bool × CircuitBreaker :=
  if threshold ≤ 0 then
    if cb.state ≠ .closed then (false, reset cb) else (false, cb)
  else if cb.state ≠ .opened then (false, cb)
  else if now - cb.opened_at ≥ reset_seconds then
    (false, { cb with state := .half_open, failure_count := max (threshold - 1) 0 })
  else (true, cb)

/-- `_CircuitBreaker.record_failure(threshold)`: returns whether the breaker
just opened, and the updated breaker. -/
def record_failure (cb : CircuitBreaker) (now : ℚ) (threshold : ℤ) :
    Bool × CircuitBreaker :=
  if threshold ≤ 0 then (false, cb)
  else if cb.state = .opened then (false, { cb with opened_at := now })
  else
    let fc := min (cb.failure_count + 1) threshold
    if fc ≥ threshold then
      (true, { failure_count := fc, state := .opened, opened_at := now })
    else (false, { cb with failure_count := fc, state := .closed })

/-- `_CircuitBreaker.record_success()`: returns whether this was a recovery,
and the updated breaker. -/
def record_success (cb : CircuitBreaker) : Bool × CircuitBreaker :=
  (cb.state == .opened || cb.state == .half_open, ⟨0, .closed, 0⟩)

/-- `n` consecutive `record_failure` calls starting from a fresh breaker, the
`k`-th at time `times k`. -/
def failN (threshold : ℤ) (times : ℕ → ℚ) : ℕ → CircuitBreaker
  | 0 => initBreaker
  | n + 1 => (record_failure (failN threshold times n) (times n) threshold).2

end Breaker

namespace Queue

/-- A persisted job record as read back from `ingest_queue.json`
(`_load_queue_records` already guarantees each item is a dict).  `payload_valid`
abstracts whether `AdminIngestUploadRequest.model_validate(record["payload"])`
succeeds; `none` in a field means the key is absent or has the wrong type;
the `queued_at` timestamp is elided (it does not affect restore decisions). -/
structure RawRecord where
  payload_valid : Bool
  job_id : Option String
  actor : Option String
  audit : Bool
  attempts : Option ℤ
  max_attempts : Option ℤ
  deriving DecidableEq, Repr

/-- The hydrated `UploadIngestJob` dataclass (payload and `queued_at` elided). -/
structure UploadIngestJob where
  job_id : String
  actor : String
  audit : Bool
  attempts : ℤ
  max_attempts : ℤ
  deriving DecidableEq, Repr

/-- `_hydrate_job(record)`: `fresh` stands for `uuid.uuid4().hex`, used when the
stored `job_id` is absent or falsy; `defaultMax` is `DEFAULT_MAX_ATTEMPTS`. -/
def _hydrate_job (defaultMax : ℤ) (fresh : String) (r : RawRecord) :
    Option UploadIngestJob :=
  if ¬ r.payload_valid then none
  else some
    { job_id :=
        match r.job_id with
        | some s => if s = "" then fresh else s
        | none => fresh
      actor :=
        match r.actor with
        | some a => if a = "" then "unknown" else a
        | none => "unknown"
      audit := r.audit
      attempts :=
        match r.attempts with
        | some a => if a < 0 then 0 else a
        | none => 0
      max_attempts :=
        match r.max_attempts with
        | some m => if m < 1 then defaultMax else m
        | none => defaultMax }

/-- Job-history statuses. -/
inductive JobStatus
  | queued
  | running
  | retrying
  | succeeded
  | failed
  deriving DecidableEq, Repr

/-- One `update_job_history` call made during restore: status, the attempts
value written, and whether a `resumed_at` timestamp was recorded. -/
structure HistoryEvent where
  job_id : String
  status : JobStatus
  attempts : ℤ
  resumed : Bool
  deriving DecidableEq, Repr

/-- Observable effects of `_restore_pending_jobs`: history updates, removed
durable records, and the jobs pushed back onto the in-memory queue (in order). -/
structure RestoreOutcome where
  events : List HistoryEvent
  removed : List String
  queued : List UploadIngestJob
  deriving DecidableEq, Repr

/-- One iteration of the `for record in records` loop of
`_restore_pending_jobs`. -/
def restoreStep (defaultMax : ℤ) (freshIds : ℕ → String)
    (acc : RestoreOutcome) (ir : ℕ × RawRecord) : RestoreOutcome :=
  match _hydrate_job defaultMax (freshIds ir.1) ir.2 with
  | none => acc
  | some job =>
    if job.attempts ≥ job.max_attempts then
      { acc with
          events := acc.events ++ [⟨job.job_id, .failed, job.attempts, false⟩]
          removed := acc.removed ++ [job.job_id] }
    else
      { acc with
          events := acc.events ++ [⟨job.job_id, .queued, job.attempts, true⟩]
          queued := acc.queued ++ [job] }

/-- `IngestJobQueue._restore_pending_jobs()` over the persisted records;
`freshIds k` is the uuid generated for the `k`-th record if needed. -/
def _restore_pending_jobs (defaultMax : ℤ) (freshIds : ℕ → String)
    (records : List RawRecord) : RestoreOutcome :=
  records.enum.foldl (restoreStep defaultMax freshIds) ⟨[], [], []⟩

/-- The per-record contribution of restore, for the statement of C5. -/
def restoreDelta (defaultMax : ℤ) (freshIds : ℕ → String)
    (ir : ℕ × RawRecord) : RestoreOutcome :=
  restoreStep defaultMax freshIds ⟨[], [], []⟩ ir

end Queue

namespace PyStr

/-- Python `str.rstrip()` (no argument: strips trailing whitespace). -/
def rstrip (l : List Char) : List Char :=
  (l.reverse.dropWhile pyIsSpace).reverse

/-- Python `str.strip()` (no argument: strips whitespace at both ends). -/
def pyStrip (l : List Char) : List Char :=
  rstrip (l.dropWhile pyIsSpace)

/-- `text.replace("\\r\\n", "\\n")`. -/
def replaceCRLF : List Char → List Char
  | [] => []
  | c :: rest =>
    match rest with
    | c2 :: rest2 =>
      if c = '\r' ∧ c2 = '\n' then '\n' :: replaceCRLF rest2
      else c :: replaceCRLF (c2 :: rest2)
    | [] => [c]

/-- `text.split("\\n")` (keeps empty fields). -/
def splitOnNl : List Char → List (List Char)
  | [] => [[]]
  | c :: rest =>
    if c = '\n' then [] :: splitOnNl rest
    else
      match splitOnNl rest with
      | l :: ls => (c :: l) :: ls
      | [] => [[c]]

/-- Accumulator-based `str.split()` (split on whitespace runs, no empties). -/
def pySplitWsAux : List Char → List Char → List (List Char)
  | [], cur => if cur = [] then [] else [cur]
  | c :: rest, cur =>
    if pyIsSpace c then
      if cur = [] then pySplitWsAux rest [] else cur :: pySplitWsAux rest []
    else pySplitWsAux rest (cur ++ [c])

/-- Python `str.split()` with no arguments. -/
def pySplitWs (l : List Char) : List (List Char) :=
  pySplitWsAux l []

end PyStr

namespace Storage

/-- The pydantic `Document` model of `src/schemas/models.py` (the free-form
`extra` dict is elided; it carries no contract relevant to the claims). -/
structure Document where
  doc_id : String
  source_name : String
  language : String
  url : Option String
  domain : Option String
  freshness : Option String
  checksum : Option String
  version : ℤ
  updated_at : ℚ
  tags : List String
  deriving DecidableEq, Repr

/-- Pydantic validation performed by `Document(...)`: `doc_id` and
`source_name` have `min_length=1` and `version` has `ge=1`; on violation a
`ValidationError` naming the first offending field is raised. -/
def mkDocument (doc_id source_name language : String)
    (url domain freshness checksum : Option String) (version : ℤ)
    (updated_at : ℚ) (tags : List String) : Except String Document :=
  if doc_id.length < 1 then .error "doc_id"
  else if source_name.length < 1 then .error "source_name"
  else if version < 1 then .error "version"
  else .ok ⟨doc_id, source_name, language, url, domain, freshness, checksum,
    version, updated_at, tags⟩

/-- `docs[key] = d` on an insertion-ordered dict represented as a list with
unique keys: replace in place when the key exists, else append. -/
def dictInsert (m : List Document) (d : Document) : List Document :=
  if m.any (fun e => e.doc_id == d.doc_id) then
    m.map (fun e => if e.doc_id == d.doc_id then d else e)
  else m ++ [d]

/-- `docs.get(key)` on the dict representation. -/
def dictGet (m : List Document) (key : String) : Option Document :=
  m.find? (fun e => e.doc_id == key)

/-- `{doc.doc_id: doc for doc in load_manifest()}`: later manifest entries win. -/
def manifestDict (manifest : List Document) : List Document :=
  manifest.foldl dictInsert []

/-- `upsert_document(document)` over a manifest state: bumps the version when
the `doc_id` already exists, stamps `updated_at := now`, and returns the stored
document together with the saved manifest. -/
def upsert_document (manifest : List Document) (d : Document) (now : ℚ) :
    Document × List Document :=
  let docs := manifestDict manifest
  let d1 :=
    match dictGet docs d.doc_id with
    | some existing => { d with version := existing.version + 1 }
    | none => d
  let d2 := { d1 with updated_at := now }
  (d2, dictInsert docs d2)

end Storage

namespace Ingest

open PyStr

/-- `normalize_text(text)`: normalize line endings and strip trailing
whitespace per line. -/
def normalize_text (t : List Char) : List Char :=
  List.intercalate ['\n'] ((splitOnNl (replaceCRLF t)).map rstrip)

/-- `_sanitize_doc_id(value)`: lowercase, whitespace runs collapsed to
hyphens. -/
def _sanitize_doc_id (v : List Char) : List Char :=
  (List.intercalate ['-'] (pySplitWs (pyStrip v))).map Char.toLower

/-- Failure modes of synchronous ingestion. -/
inductive IngestError
  | validationError (field : String)
  | fileNotFound
  deriving DecidableEq, Repr

/-- The `IngestResult` dataclass (paths elided). -/
structure IngestResult where
  document : Storage.Document
  chunk_count : ℕ
  deriving DecidableEq, Repr

/-- `ingest_content(content, source_name, doc_id, language, …)`: returns the
result, the saved manifest, and the job-history status recorded; `sha256`
stands for `hashlib.sha256(...).hexdigest()`. -/
def ingest_content (manifest : List Storage.Document) (content : List Char)
    (source_name : List Char) (doc_id : Option (List Char)) (language : String)
    (url domain freshness : Option String) (tags : List (List Char))
    (sha256 : List Char → String) (max_chars overlap : ℤ) (now : ℚ) :
    Except IngestError (IngestResult × List Storage.Document × String) :=
  let normalized := normalize_text content
  let doc_identifier := _sanitize_doc_id
    (match doc_id with
     | some d => if d ≠ [] then d else source_name
     | none => source_name)
  let chunked := Chunking.simple_paragraph_chunk normalized
    (String.mk doc_identifier) max_chars overlap
  let cleaned_tags := tags.filterMap
    (fun tg => if pyStrip tg ≠ [] then some (String.mk (pyStrip tg)) else none)
  match Storage.mkDocument (String.mk doc_identifier) (String.mk source_name)
    language url domain freshness (some (sha256 normalized)) 1 now
    cleaned_tags with
  | .error f => .error (.validationError f)
  | .ok document =>
    let up := Storage.upsert_document manifest document now
    .ok (⟨up.1, chunked.length⟩, up.2, "succeeded")

/-- `ingest_file(path, …)`: `read` is `path.read_text()` when the path exists,
`none` when it does not (`FileNotFoundError`); `path_name`/`path_stem` are
`path.name`/`path.stem`. -/
def ingest_file (manifest : List Storage.Document) (read : Option (List Char))
    (path_name path_stem : List Char) (doc_id : Option (List Char))
    (language : String) (url domain freshness : Option String)
    (tags : List (List Char)) (sha256 : List Char → String)
    (max_chars overlap : ℤ) (now : ℚ) :
    Except IngestError (IngestResult × List Storage.Document × String) :=
  match read with
  | none => .error .fileNotFound
  | some content =>
    ingest_content manifest content path_name
      (match doc_id with
       | some d => if d ≠ [] then some d else some path_stem
       | none => some path_stem)
      language url domain freshness tags sha256 max_chars overlap now

end Ingest

namespace Rerank

/-- Exceptions that can escape the rerank HTTP call or response handling
(all are subclasses of `Exception`, so all are caught by the outer handler). -/
inductive PyExc
  | readTimeout
  | connectError
  | httpStatusError (status : ℕ)
  | otherError
  deriving DecidableEq, Repr

/-- `_should_retry_stream_http_status(status_code)` — the closed list of
retryable HTTP statuses, used by the chat-stream retry path. -/
def _should_retry_stream_http_status (status_code : ℕ) : Bool :=
  if status_code = 429 then true
  else if status_code = 408 ∨ status_code = 409 then true
  else decide (500 ≤ status_code) && decide (status_code ≤ 599)

/-- `_fallback_scores(documents)`: monotonically decreasing scores in input
order. -/
def _fallback_scores (documents : List String) : List (ℤ × ℚ) :=
  (List.range documents.length).map
    (fun (idx : ℕ) => ((idx : ℤ), (Nat.cast (documents.length - idx) : ℚ)))

/-- One item of the response's `data` list: `item.get("index")` when it is an
int, and `float(item.get("score"))` (`none` when the conversion raises, in
which case the code substitutes 0.0). -/
structure RespItem where
  index : Option ℤ
  score : Option ℚ
  deriving DecidableEq, Repr

/-- Outcome of one attempt: the HTTP call + `raise_for_status` + JSON parse
either raises or yields a parsed `data` list. -/
inductive AttemptOutcome
  | raises (e : PyExc)
  | responds (data : List RespItem)

/-- The `for item in data` filtering loop of `rerank_async`: keep items whose
`index` is an int in `[0, len(documents))`, coercing bad scores to 0.0. -/
def parseResults (n : ℕ) (data : List RespItem) : List (ℤ × ℚ) :=
  data.filterMap (fun item =>
    match item.index with
    | some idx =>
      if 0 ≤ idx ∧ idx < (n : ℤ) then some (idx, item.score.getD 0) else none
    | none => none)

/-- Result of the `AsyncRetrying` loop. -/
inductive LoopResult
  | results (rs : List (ℤ × ℚ))
  | emptyFallback
  | raised (e : PyExc)
  deriving DecidableEq, Repr

/-- The `async for attempt in AsyncRetrying(...)` loop of `rerank_async`: no
`retry=` predicate is configured, so tenacity retries EVERY exception;
`stop_after_attempt(max_attempts)` with `reraise=True` reraises the exception
of the final attempt.  `left` counts remaining attempts (initially
`max_attempts`), `attempt` is the 1-based attempt number; returns the loop
result and the last attempt number. -/
def retryLoop (oracle : ℕ → AttemptOutcome) (n : ℕ) : ℕ → ℕ → LoopResult × ℕ
  | 0, attempt => (.raised .otherError, attempt - 1)
  | left + 1, attempt =>
    match oracle attempt with
    | .responds data =>
      match parseResults n data with
      | [] => (.emptyFallback, attempt)
      | r :: rs => (.results (r :: rs), attempt)
    | .raises e =>
      if left = 0 then (.raised e, attempt)
      else retryLoop oracle n left (attempt + 1)

/-- What `rerank_async` produces: the value returned to the caller, the number
of attempts actually made, and the breaker state afterwards. -/
structure RerankOutcome where
  result : List (ℤ × ℚ)
  attempts_used : ℕ
  breaker : Breaker.CircuitBreaker
  deriving Repr

/-- `_record_rerank_failure`: a no-op when `threshold <= 0`. -/
def recordRerankFailure (cb : Breaker.CircuitBreaker) (now : ℚ)
    (threshold : ℤ) : Breaker.CircuitBreaker :=
  if threshold ≤ 0 then cb else (Breaker.record_failure cb now threshold).2

/-- `rerank_async(query, documents)` (the query string only flows into the
payload and does not influence control flow, so it is elided): `enabled` is
`_enabled()`, `max_attempts_raw` is `_rerank_max_attempts()` (clamped below by
`max(…, 1)` as in the code), `oracle` gives each attempt's outcome, and `now`
feeds the breaker's injected monotonic clock. -/
def rerank_async (documents : List String) (enabled : Bool)
    (cb : Breaker.CircuitBreaker) (now : ℚ) (max_attempts_raw : ℤ)
    (failure_threshold : ℤ) (reset_seconds : ℚ)
    (oracle : ℕ → AttemptOutcome) : RerankOutcome :=
  if documents = [] then ⟨[], 0, cb⟩
  else if enabled = false then ⟨_fallback_scores documents, 0, cb⟩
  else
    let skip := Breaker.should_skip cb now failure_threshold reset_seconds
    if skip.1 then ⟨_fallback_scores documents, 0, skip.2⟩
    else
      let max_attempts := (max max_attempts_raw 1).toNat
      match retryLoop oracle documents.length max_attempts 1 with
      | (.results rs, a) => ⟨rs, a, (Breaker.record_success skip.2).2⟩
      | (.emptyFallback, a) =>
        ⟨_fallback_scores documents, a, recordRerankFailure skip.2 now failure_threshold⟩
      | (.raised _, a) =>
        ⟨_fallback_scores documents, a, recordRerankFailure skip.2 now failure_threshold⟩

end Rerank

namespace Index

/-- The `Retrieved` dataclass of `src/utils/index.py`; `μ` is the type of the
chunk metadata dicts. -/
structure Retrieved (μ : Type) where
  chunk_id : String
  text : String
  score : ℚ
  meta : μ
  deriving DecidableEq, Repr

/-- `t.lower().split()` — the tokenization used for BM25. -/
def pyLowerSplit (s : String) : List String :=
  (PyStr.pySplitWs (s.toList.map Char.toLower)).map String.mk

/-- `_cosine(a, b)`. -/
def _cosine (a b : List ℚ) : ℚ :=
  (List.zipWith (fun x y => x * y) a b).sum

/-- Python `max(list)` for a non-empty list (`max([])` raises, which the code
never reaches: the loop body only evaluates it when there are candidates). -/
def pyMax : List ℚ → ℚ
  | [] => 0
  | x :: xs => xs.foldl max x

/-- The state of a built `HybridIndex`.  `getScores` stands for
`self.bm25.get_scores` (the external `rank_bm25` engine built over the
tokenized corpus) and `embedQuery` for `self.embedder.embed([q])[0]`;
`embeddings` is `self.embedder.embed(self.texts)` computed at build time. -/
structure HybridIndex (μ : Type) where
  ids : List String
  texts : List String
  metas : List μ
  embeddings : List (List ℚ)
  getScores : List String → List ℚ
  embedQuery : String → List ℚ

/-- `results.sort(key=lambda x: x[1], reverse=True)`: Python's sort is stable,
and a stable sort is extensionally unique, so Timsort is modelled by the
stable `mergeSort` with the same (descending-by-score) comparison. -/
def pySortDesc (l : List (ℕ × ℚ)) : List (ℕ × ℚ) :=
  l.mergeSort (fun a b => decide (b.2 ≤ a.2))

/-- The `(internal index, hybrid score)` pairs of `HybridIndex.query`, sorted
and truncated to `top_k` (the code then maps them to `Retrieved` records). -/
def queryRanked {μ : Type} (idx : HybridIndex μ) (q : String) (top_k : ℕ)
    (alpha : ℚ) : List (ℕ × ℚ) :=
  let bm_scores := idx.getScores (pyLowerSplit q)
  let den_scores := idx.embeddings.map (_cosine (idx.embedQuery q))
  let m := pyMax bm_scores
  let results := (bm_scores.zip den_scores).enum.map
    (fun p => (p.1, (1 - alpha) * (p.2.1 / (if m = 0 then 1 else m)) + alpha * p.2.2))
  (pySortDesc results).take top_k

/-- `HybridIndex.query(q, top_k, alpha)`. -/
def query {μ : Type} [Inhabited μ] (idx : HybridIndex μ) (q : String)
    (top_k : ℕ) (alpha : ℚ) : List (Retrieved μ) :=
  (queryRanked idx q top_k alpha).map
    (fun p => ⟨idx.ids.getD p.1 "", idx.texts.getD p.1 "", p.2,
      idx.metas.getD p.1 default⟩)

/-- A two-chunk index with fixed oracle scores, for concrete evaluation. -/
def demoIndex : HybridIndex Unit :=
  ⟨["c1", "c2"], ["a", "b"], [(), ()], [[1], [0]],
    fun _ => [2, 1], fun _ => [1]⟩

end Index

-- ===================== END OF DEFINITIONS (more added above) ==============

namespace Chunking

open PyStr

theorem chunkLoopF_text_eq (t : List Char) (doc : String) (mc ov : ℤ)
    (spans : List Span) :
    ∀ fuel idx c, c ∈ chunkLoopF t doc mc ov spans fuel idx →
      c.text = pySlice t c.start_idx c.end_idx := by
  intro fuel
  induction fuel with
  | zero => intro idx c h; simp [chunkLoopF] at h
  | succ n ih =>
    intro idx c h
    rw [chunkLoopF] at h
    by_cases hlt : idx < spans.length
    · simp only [if_pos hlt] at h
      split at h
      · rcases List.mem_cons.mp h with rfl | h
        · rfl
        · exact ih _ _ h
      · split at h
        · rcases List.mem_cons.mp h with rfl | h
          · rfl
          · exact ih _ _ h
        · rcases List.mem_cons.mp h with rfl | h
          · rfl
          · exact ih _ _ h
    · simp only [if_neg hlt] at h
      exact absurd h (List.not_mem_nil c)

/-- C1: for every document text and all chunking parameters, every passage
produced by the chunker satisfies `text[start_idx:end_idx] == passage.text`:
re-slicing the chunked text at the recorded offsets reproduces the passage
text exactly. -/
theorem C1_offset_roundtrip (t : List Char) (doc : String) (mc ov : ℤ)
    (c : Chunk) (hc : c ∈ simple_paragraph_chunk t doc mc ov) :
    pySlice t c.start_idx c.end_idx = c.text := by
  simp only [simple_paragraph_chunk] at hc
  split at hc
  · exact absurd hc (List.not_mem_nil c)
  · exact (chunkLoopF_text_eq t doc mc ov _ _ _ c hc).symm

/-- Witness for C1 at the spec's concrete scenario (`"A. B. C."`, 3, 1). -/
theorem C1_offset_roundtrip_witness :
    pySlice demoText ((simple_paragraph_chunk demoText "d" 3 1).getD 0 default).start_idx
        ((simple_paragraph_chunk demoText "d" 3 1).getD 0 default).end_idx
      = ((simple_paragraph_chunk demoText "d" 3 1).getD 0 default).text :=
  C1_offset_roundtrip demoText "d" 3 1 _ (by decide)

theorem trimLeftF_ge (t : List Char) :
    ∀ fuel s e, s ≤ trimLeftF t fuel s e := by
  intro fuel
  induction fuel with
  | zero => intro s e; simp [trimLeftF]
  | succ n ih =>
    intro s e
    rw [trimLeftF]
    split
    · exact le_trans (Nat.le_succ s) (ih (s + 1) e)
    · exact le_refl s

theorem trimLeftF_le (t : List Char) :
    ∀ fuel s e, s ≤ e → trimLeftF t fuel s e ≤ e := by
  intro fuel
  induction fuel with
  | zero => intro s e h; simpa [trimLeftF] using h
  | succ n ih =>
    intro s e h
    rw [trimLeftF]
    split
    · rename_i hc
      exact ih (s + 1) e hc.1
    · exact h

theorem trimLeftF_le_of_nonspace (t : List Char) :
    ∀ fuel s e q, s ≤ q → q < e → pyIsSpace (t.getD q ' ') = false →
      trimLeftF t fuel s e ≤ q := by
  intro fuel
  induction fuel with
  | zero => intro s e q h _ _; simpa [trimLeftF] using h
  | succ n ih =>
    intro s e q hsq hqe hw
    rw [trimLeftF]
    split
    · rename_i hc
      have hne : s ≠ q := by
        intro h; rw [h] at hc; rw [hw] at hc; exact Bool.noConfusion hc.2
      exact ih (s + 1) e q (Nat.succ_le_of_lt (lt_of_le_of_ne hsq hne)) hqe hw
    · exact hsq

theorem trimRightF_le (t : List Char) :
    ∀ fuel s e, trimRightF t fuel s e ≤ e := by
  intro fuel
  induction fuel with
  | zero => intro s e; simp [trimRightF]
  | succ n ih =>
    intro s e
    rw [trimRightF]
    split
    · exact le_trans (ih s (e - 1)) (Nat.sub_le e 1)
    · exact le_refl e

theorem trimRightF_gt_of_nonspace (t : List Char) :
    ∀ fuel s e q, s ≤ q → q < e → pyIsSpace (t.getD q ' ') = false →
      q < trimRightF t fuel s e := by
  intro fuel
  induction fuel with
  | zero => intro s e q _ h _; simpa [trimRightF] using h
  | succ n ih =>
    intro s e q hsq hqe hw
    rw [trimRightF]
    split
    · rename_i hc
      have hne : e - 1 ≠ q := by
        intro h; rw [h] at hc; rw [hw] at hc; exact Bool.noConfusion hc.2
      have : q < e - 1 := by omega
      exact ih s (e - 1) q hsq this hw
    · exact hqe

theorem trimSpan_le_left (t : List Char) (s e : ℕ) : s ≤ (trimSpan t s e).1 :=
  trimLeftF_ge t (e - s) s e

theorem trimSpan_le_right (t : List Char) (s e : ℕ) : (trimSpan t s e).2 ≤ e :=
  trimRightF_le t _ _ e

theorem trimSpan_left_le (t : List Char) (s e : ℕ) (h : s ≤ e) :
    (trimSpan t s e).1 ≤ e :=
  trimLeftF_le t (e - s) s e h

theorem trimSpan_mem (t : List Char) (s e q : ℕ) (h1 : s ≤ q) (h2 : q < e)
    (hw : pyIsSpace (t.getD q ' ') = false) :
    (trimSpan t s e).1 ≤ q ∧ q < (trimSpan t s e).2 := by
  constructor
  · exact trimLeftF_le_of_nonspace t (e - s) s e q h1 h2 hw
  · exact trimRightF_gt_of_nonspace t _ _ e q
      (trimLeftF_le_of_nonspace t (e - s) s e q h1 h2 hw) h2 hw


theorem foldl_acc_append {α β : Type} (g : α → List β) :
    ∀ (l : List α) (init : List β),
      l.foldl (fun acc x => acc ++ g x) init = init ++ (l.map g).flatten := by
  intro l
  induction l with
  | nil => intro init; simp
  | cons x xs ih => intro init; simp [List.foldl_cons, ih, List.append_assoc]

theorem piecesAux_tile :
    ∀ (cs : List Char) (i ls : ℕ), ls ≤ i → ∀ q, ls ≤ q → q < i + cs.length →
      ∃ pr ∈ piecesAux cs i ls, pr.1 ≤ q ∧ q < pr.2 := by
  intro cs
  induction cs with
  | nil =>
    intro i ls hle q hq1 hq2
    simp only [List.length_nil, Nat.add_zero] at hq2
    have : ls < i := lt_of_le_of_lt hq1 hq2
    refine ⟨(ls, i), ?_, hq1, hq2⟩
    simp [piecesAux, this]
  | cons c rest ih =>
    intro i ls hle q hq1 hq2
    rw [piecesAux]
    split
    · by_cases hqi : q ≤ i
      · exact ⟨(ls, i + 1), List.mem_cons_self _ _, hq1, Nat.lt_succ_of_le hqi⟩
      · have h1 : i + 1 ≤ q := Nat.succ_le_of_lt (Nat.lt_of_not_le hqi)
        have h2 : q < (i + 1) + rest.length := by
          simp only [List.length_cons] at hq2; omega
        obtain ⟨pr, hm, h⟩ := ih (i + 1) (i + 1) (le_refl _) q h1 h2
        exact ⟨pr, List.mem_cons_of_mem _ hm, h⟩
    · have h2 : q < (i + 1) + rest.length := by
        simp only [List.length_cons] at hq2; omega
      exact ih (i + 1) ls (le_trans hle (Nat.le_succ i)) q hq1 h2

theorem piecesAux_bounds :
    ∀ (cs : List Char) (i ls : ℕ), ls ≤ i →
      ∀ pr ∈ piecesAux cs i ls, ls ≤ pr.1 ∧ pr.1 < pr.2 ∧ pr.2 ≤ i + cs.length := by
  intro cs
  induction cs with
  | nil =>
    intro i ls hle pr hm
    rw [piecesAux] at hm
    split at hm
    · rcases List.mem_singleton.mp hm with rfl
      rename_i h
      exact ⟨le_refl _, h, by simp⟩
    · exact absurd hm (List.not_mem_nil pr)
  | cons c rest ih =>
    intro i ls hle pr hm
    rw [piecesAux] at hm
    split at hm
    · rcases List.mem_cons.mp hm with rfl | hm
      · exact ⟨le_refl _, Nat.lt_succ_of_le hle, by simp [Nat.add_comm, Nat.add_le_add_iff_left]⟩
      · obtain ⟨h1, h2, h3⟩ := ih (i + 1) (i + 1) (le_refl _) pr hm
        refine ⟨le_trans (le_trans hle (Nat.le_succ i)) h1, h2, ?_⟩
        simp only [List.length_cons]
        omega
    · obtain ⟨h1, h2, h3⟩ := ih (i + 1) ls (le_trans hle (Nat.le_succ i)) pr hm
      refine ⟨h1, h2, ?_⟩
      simp only [List.length_cons]
      omega

theorem piecesAux_chain :
    ∀ (cs : List Char) (i ls : ℕ), ls ≤ i →
      (piecesAux cs i ls).Pairwise (fun x y => x.2 ≤ y.1) := by
  intro cs
  induction cs with
  | nil =>
    intro i ls _
    rw [piecesAux]
    split
    · exact List.pairwise_singleton _ _
    · exact List.Pairwise.nil
  | cons c rest ih =>
    intro i ls hle
    rw [piecesAux]
    split
    · refine List.Pairwise.cons ?_ (ih (i + 1) (i + 1) (le_refl _))
      intro pr hm
      exact (piecesAux_bounds rest (i + 1) (i + 1) (le_refl _) pr hm).1
    · exact ih (i + 1) ls (le_trans hle (Nat.le_succ i))

theorem paraSpans_eq (t : List Char) (p : Para) :
    paraSpans t p = ((pieces p.text).map (fun piece =>
      let se := trimSpan t (p.start + piece.1) (p.start + piece.2)
      if se.2 > se.1 then [Span.mk se.1 se.2 p.index] else [])).flatten := by
  unfold paraSpans
  have hfun : (fun (acc : List Span) (piece : ℕ × ℕ) =>
      let se := trimSpan t (p.start + piece.1) (p.start + piece.2)
      if se.2 > se.1 then acc ++ [Span.mk se.1 se.2 p.index] else acc)
      = fun (acc : List Span) (piece : ℕ × ℕ) => acc ++
        (let se := trimSpan t (p.start + piece.1) (p.start + piece.2)
         if se.2 > se.1 then [Span.mk se.1 se.2 p.index] else []) := by
    funext acc piece
    simp only
    split
    · rfl
    · simp
  rw [hfun, foldl_acc_append]
  simp

theorem paraSpans_bounds (t : List Char) (p : Para) :
    ∀ sp ∈ paraSpans t p, p.start ≤ sp.start ∧ sp.start < sp.stop ∧
      sp.stop ≤ p.start + p.text.length ∧ sp.para = p.index := by
  intro sp hm
  rw [paraSpans_eq] at hm
  obtain ⟨l, hl, hsp⟩ := List.mem_flatten.mp hm
  obtain ⟨piece, hpiece, rfl⟩ := List.mem_map.mp hl
  simp only at hsp
  split at hsp
  · rcases List.mem_singleton.mp hsp with rfl
    rename_i hgt
    obtain ⟨hb1, hb2, hb3⟩ := piecesAux_bounds p.text 0 0 (le_refl 0) piece hpiece
    refine ⟨?_, hgt, ?_, rfl⟩
    · exact le_trans (Nat.le_add_right p.start piece.1) (trimSpan_le_left t _ _)
    · exact le_trans (trimSpan_le_right t _ _) (by omega)
  · exact absurd hsp (List.not_mem_nil sp)

theorem paraSpans_chain (t : List Char) (p : Para) :
    (paraSpans t p).Pairwise (fun a b => a.stop ≤ b.start) := by
  rw [paraSpans_eq]
  rw [List.pairwise_flatten]
  refine ⟨?_, ?_⟩
  · intro l hl
    obtain ⟨piece, _, rfl⟩ := List.mem_map.mp hl
    simp only
    split
    · exact List.pairwise_singleton _ _
    · exact List.Pairwise.nil
  · rw [List.pairwise_map]
    refine List.Pairwise.imp_of_mem ?_ (piecesAux_chain p.text 0 0 (le_refl 0))
    intro x y hx hy hxy sp1 h1 sp2 h2
    simp only at h1 h2
    split at h1
    · rcases List.mem_singleton.mp h1 with rfl
      split at h2
      · rcases List.mem_singleton.mp h2 with rfl
        have e1 : (trimSpan t (p.start + x.1) (p.start + x.2)).2 ≤ p.start + x.2 :=
          trimSpan_le_right t _ _
        have e2 : p.start + y.1 ≤ (trimSpan t (p.start + y.1) (p.start + y.2)).1 :=
          trimSpan_le_left t _ _
        simp only
        omega
      · exact absurd h2 (List.not_mem_nil sp2)
    · exact absurd h1 (List.not_mem_nil sp1)

theorem paraSpans_cover (t : List Char) (p : Para) (q : ℕ)
    (hq1 : p.start ≤ q) (hq2 : q < p.start + p.text.length)
    (hw : pyIsSpace (t.getD q ' ') = false) :
    ∃ sp ∈ paraSpans t p, sp.start ≤ q ∧ q < sp.stop := by
  obtain ⟨pr, hpr, ha, hb⟩ := piecesAux_tile p.text 0 0 (le_refl 0) (q - p.start)
    (Nat.zero_le _) (by omega)
  have hga : p.start + pr.1 ≤ q := by omega
  have hgb : q < p.start + pr.2 := by omega
  obtain ⟨hm1, hm2⟩ := trimSpan_mem t (p.start + pr.1) (p.start + pr.2) q hga hgb hw
  refine ⟨⟨(trimSpan t (p.start + pr.1) (p.start + pr.2)).1,
           (trimSpan t (p.start + pr.1) (p.start + pr.2)).2, p.index⟩, ?_, hm1, hm2⟩
  rw [paraSpans_eq]
  rw [List.mem_flatten]
  refine ⟨_, List.mem_map.mpr ⟨pr, hpr, rfl⟩, ?_⟩
  simp only
  rw [if_pos (lt_of_le_of_lt hm1 hm2)]
  exact List.mem_singleton.mpr rfl


theorem splitLinesAux_flatten :
    ∀ (cs acc : List Char), (splitLinesAux cs acc).flatten = acc ++ cs := by
  intro cs acc
  induction cs, acc using splitLinesAux.induct with
  | case1 => rw [splitLinesAux]; simp
  | case2 acc h => rw [splitLinesAux]; simp [h]
  | case3 c acc c2 rest2 hcr ih =>
    rw [splitLinesAux]
    simp only [if_pos hcr, List.flatten_cons, ih]
    obtain ⟨h1, h2⟩ := hcr
    subst h1; subst h2
    simp
  | case4 c acc c2 rest2 hcr hbr ih =>
    rw [splitLinesAux]
    simp only [if_neg hcr, if_pos hbr, List.flatten_cons, ih]
    simp
  | case5 c acc c2 rest2 hcr hbr ih =>
    rw [splitLinesAux]
    simp only [if_neg hcr, if_neg hbr, ih]
    simp
  | case6 c acc hbr ih =>
    rw [splitLinesAux]
    simp only [if_pos hbr]
    rw [splitLinesAux]
    simp
  | case7 c acc hbr ih =>
    rw [splitLinesAux]
    simp only [if_neg hbr]
    rw [splitLinesAux]
    simp

theorem splitLines_flatten (t : List Char) : (splitLines t).flatten = t := by
  simpa using splitLinesAux_flatten t []

theorem getD_of_drop_eq {t ln rest : List Char} {pos : ℕ}
    (h : ln ++ rest = t.drop pos) (i : ℕ) (hi : i < ln.length) (d : Char) :
    t.getD (pos + i) d = ln.getD i d := by
  have h1 : t[pos + i]? = (t.drop pos)[i]? := (List.getElem?_drop t pos i).symm
  have h2 : (ln ++ rest)[i]? = ln[i]? := by
    rw [List.getElem?_append]
    rw [if_pos hi]
  rw [List.getD_eq_getElem?_getD, List.getD_eq_getElem?_getD, h1, ← h, h2]

theorem pyIsBlank_getD {l : List Char} (h : pyIsBlank l = true) (i : ℕ)
    (hi : i < l.length) : pyIsSpace (l.getD i ' ') = true := by
  have hm : l.getD i ' ' ∈ l := by
    rw [List.getD_eq_getElem?_getD, List.getElem?_eq_getElem hi]
    simp only [Option.getD_some]
    exact List.getElem_mem hi
  exact List.all_eq_true.mp h _ hm

theorem iterParaFold (t : List Char) :
    ∀ (ls : List (List Char)) (st : ParaState),
      ls.flatten = t.drop st.pos →
      st.pos ≤ t.length →
      (st.buffer = [] ↔ st.para_start = none) →
      (∀ s, st.para_start = some s → s + st.buffer.length = st.pos) →
      (∀ p ∈ st.paragraphs, p.start + p.text.length ≤ st.para_start.getD st.pos) →
      st.paragraphs.Pairwise (fun p q => p.start + p.text.length ≤ q.start) →
      (∀ q, q < st.pos → pyIsSpace (t.getD q ' ') = false →
        (∃ p ∈ st.paragraphs, p.start ≤ q ∧ q < p.start + p.text.length) ∨
        (∃ s, st.para_start = some s ∧ s ≤ q)) →
      ((ls.foldl iterParaStep st).pos = t.length ∧
       ((ls.foldl iterParaStep st).buffer = [] ↔
         (ls.foldl iterParaStep st).para_start = none) ∧
       (∀ s, (ls.foldl iterParaStep st).para_start = some s →
         s + (ls.foldl iterParaStep st).buffer.length = (ls.foldl iterParaStep st).pos) ∧
       (∀ p ∈ (ls.foldl iterParaStep st).paragraphs, p.start + p.text.length ≤
         (ls.foldl iterParaStep st).para_start.getD (ls.foldl iterParaStep st).pos) ∧
       (ls.foldl iterParaStep st).paragraphs.Pairwise
         (fun p q => p.start + p.text.length ≤ q.start) ∧
       (∀ q, q < (ls.foldl iterParaStep st).pos → pyIsSpace (t.getD q ' ') = false →
        (∃ p ∈ (ls.foldl iterParaStep st).paragraphs,
          p.start ≤ q ∧ q < p.start + p.text.length) ∨
        (∃ s, (ls.foldl iterParaStep st).para_start = some s ∧ s ≤ q))) := by
  intro ls
  induction ls with
  | nil =>
    intro st hj hpos h1 h2 h3 h4 h5
    simp only [List.flatten_nil] at hj
    have hlen : t.length - st.pos = 0 := by
      have := congrArg List.length hj
      simp at this
      omega
    have hpos' : st.pos = t.length := by omega
    exact ⟨hpos', h1, h2, h3, h4, h5⟩
  | cons line rest ih =>
    intro st hj hpos h1 h2 h3 h4 h5
    simp only [List.flatten_cons] at hj
    have hlen2 : line.length + rest.flatten.length = t.length - st.pos := by
      have hll := congrArg List.length hj
      rw [List.length_append, List.length_drop] at hll
      omega
    have hpos2 : st.pos + line.length ≤ t.length := by omega
    have hrest : rest.flatten = t.drop (st.pos + line.length) := by
      have h' := congrArg (List.drop line.length) hj
      rw [List.drop_left] at h'
      rw [List.drop_drop] at h'
      exact h'
    have hchar : ∀ i, i < line.length → t.getD (st.pos + i) ' ' = line.getD i ' ' :=
      fun i hi => getD_of_drop_eq hj i hi ' '
    rw [List.foldl_cons]
    by_cases hblank : pyIsBlank line
    · by_cases hbuf : st.buffer = []
      · -- blank line, empty buffer: only pos advances
        have hps : st.para_start = none := h1.mp hbuf
        have hstep : iterParaStep st line =
            { st with pos := st.pos + line.length } := by
          rw [iterParaStep, if_pos hblank, if_neg (by simpa using hbuf)]
        rw [hstep]
        refine ih _ (by simpa using hrest) hpos2 (by simpa using h1)
          ?_ ?_ (by simpa using h4) ?_
        · intro s' hs'
          dsimp only at hs'
          rw [hps] at hs'
          exact Option.noConfusion hs'
        · intro p hp
          simp only [hps, Option.getD_none] at h3 ⊢
          exact le_trans (h3 p hp) (Nat.le_add_right _ _)
        · intro q hq hw
          dsimp only at hq ⊢
          by_cases hq2 : q < st.pos
          · exact h5 q hq2 hw
          · exfalso
            have hi : q - st.pos < line.length := by omega
            have hb := pyIsBlank_getD hblank (q - st.pos) hi
            have heq := hchar (q - st.pos) hi
            rw [Nat.add_sub_cancel' (by omega : st.pos ≤ q)] at heq
            rw [heq, hb] at hw
            exact Bool.noConfusion hw
      · -- blank line, nonempty buffer: flush the paragraph
        obtain ⟨s, hs⟩ : ∃ s, st.para_start = some s := by
          cases hcase : st.para_start with
          | none => exact absurd (h1.mpr hcase) hbuf
          | some s => exact ⟨s, rfl⟩
        have hsum := h2 s hs
        have hstep : iterParaStep st line =
            { pos := st.pos + line.length
              para_start := none
              buffer := []
              para_index := st.para_index + 1
              paragraphs := st.paragraphs ++
                [⟨st.buffer, st.para_start.getD 0, st.para_index⟩] } := by
          rw [iterParaStep, if_pos hblank, if_pos (by simpa using hbuf)]
        rw [hstep]
        have hgd : st.para_start.getD 0 = s := by rw [hs]; rfl
        refine ih _ (by simpa using hrest) hpos2 (by simp) (by simp) ?_ ?_ ?_
        · intro p hp
          dsimp only at hp ⊢
          simp only [Option.getD_none]
          rcases List.mem_append.mp hp with hp | hp
          · have := h3 p hp
            rw [hs] at this
            simp only [Option.getD_some] at this
            omega
          · rcases List.mem_singleton.mp hp with rfl
            dsimp only
            rw [hgd]
            omega
        · dsimp only
          rw [List.pairwise_append]
          refine ⟨h4, List.pairwise_singleton _ _, ?_⟩
          intro p hp p' hp'
          rcases List.mem_singleton.mp hp' with rfl
          have := h3 p hp
          rw [hs] at this
          simp only [Option.getD_some] at this
          dsimp only
          rw [hgd]
          exact this
        · intro q hq hw
          dsimp only at hq ⊢
          by_cases hq2 : q < st.pos
          · rcases h5 q hq2 hw with ⟨p, hp, hc⟩ | ⟨s', hs', hc⟩
            · exact Or.inl ⟨p, List.mem_append_left _ hp, hc⟩
            · rw [hs] at hs'
              injection hs' with hs'
              subst hs'
              refine Or.inl ⟨⟨st.buffer, st.para_start.getD 0, st.para_index⟩,
                List.mem_append_right _ (List.mem_singleton.mpr rfl), ?_, ?_⟩
              · dsimp only
                rw [hgd]
                exact hc
              · dsimp only
                rw [hgd]
                omega
          · exfalso
            have hi : q - st.pos < line.length := by omega
            have hb := pyIsBlank_getD hblank (q - st.pos) hi
            have heq := hchar (q - st.pos) hi
            rw [Nat.add_sub_cancel' (by omega : st.pos ≤ q)] at heq
            rw [heq, hb] at hw
            exact Bool.noConfusion hw
    · -- non-blank line: extend (or start) the buffer
      have hline : line ≠ [] := by
        intro h
        rw [h] at hblank
        exact hblank rfl
      have hstep : iterParaStep st line =
          { st with
              para_start := if st.buffer = [] then some st.pos else st.para_start
              buffer := st.buffer ++ line
              pos := st.pos + line.length } := by
        rw [iterParaStep, if_neg hblank]
      rw [hstep]
      by_cases hbuf : st.buffer = []
      · have hps : st.para_start = none := h1.mp hbuf
        refine ih _ (by simpa using hrest) hpos2 ?_ ?_ ?_ (by simpa using h4) ?_
        · dsimp only
          rw [if_pos hbuf]
          simp [hbuf, hline]
        · intro s' hs'
          dsimp only at hs' ⊢
          rw [if_pos hbuf] at hs'
          injection hs' with hs'
          subst hs'
          simp [hbuf]
        · intro p hp
          dsimp only at hp ⊢
          rw [if_pos hbuf]
          simp only [Option.getD_some]
          have := h3 p hp
          rwa [hps, Option.getD_none] at this
        · intro q hq hw
          dsimp only at hq ⊢
          rw [if_pos hbuf]
          by_cases hq2 : q < st.pos
          · rcases h5 q hq2 hw with ⟨p, hp, hc⟩ | ⟨s', hs', _⟩
            · exact Or.inl ⟨p, hp, hc⟩
            · rw [hps] at hs'
              exact absurd hs' (by simp)
          · exact Or.inr ⟨st.pos, rfl, by omega⟩
      · obtain ⟨s, hs⟩ : ∃ s, st.para_start = some s := by
          cases hcase : st.para_start with
          | none => exact absurd (h1.mpr hcase) hbuf
          | some s => exact ⟨s, rfl⟩
        have hsum := h2 s hs
        refine ih _ (by simpa using hrest) hpos2 ?_ ?_ ?_ (by simpa using h4) ?_
        · dsimp only
          rw [if_neg hbuf, hs]
          simp [hbuf, hline]
        · intro s' hs'
          dsimp only at hs' ⊢
          rw [if_neg hbuf, hs] at hs'
          injection hs' with hs'
          subst hs'
          simp only [List.length_append]
          omega
        · intro p hp
          dsimp only at hp ⊢
          rw [if_neg hbuf, hs]
          simp only [Option.getD_some]
          have := h3 p hp
          rw [hs, Option.getD_some] at this
          exact this
        · intro q hq hw
          dsimp only at hq ⊢
          rw [if_neg hbuf, hs]
          by_cases hq2 : q < st.pos
          · rcases h5 q hq2 hw with ⟨p, hp, hc⟩ | ⟨s', hs', hc⟩
            · exact Or.inl ⟨p, hp, hc⟩
            · rw [hs] at hs'
              injection hs' with hs'
              subst hs'
              exact Or.inr ⟨s, rfl, hc⟩
          · exact Or.inr ⟨s, rfl, by omega⟩

theorem iterParagraphs_facts (t : List Char) :
    (∀ p ∈ iterParagraphs t, p.start + p.text.length ≤ t.length) ∧
    (iterParagraphs t).Pairwise (fun p q => p.start + p.text.length ≤ q.start) ∧
    (∀ q, q < t.length → pyIsSpace (t.getD q ' ') = false →
      ∃ p ∈ iterParagraphs t, p.start ≤ q ∧ q < p.start + p.text.length) := by
  have h := iterParaFold t (splitLines t) ⟨0, none, [], 0, []⟩
    (by simpa using (splitLines_flatten t)) (Nat.zero_le _) (by simp) (by simp)
    (by simp) (by simp) (by intro q hq; dsimp only at hq; omega)
  set st' : ParaState := (splitLines t).foldl iterParaStep ⟨0, none, [], 0, []⟩
    with hst
  obtain ⟨hpos, h1, h2, h3, h4, h5⟩ := h
  have hout : iterParagraphs t =
      (if st'.buffer ≠ [] then
        st'.paragraphs ++ [⟨st'.buffer, st'.para_start.getD 0, st'.para_index⟩]
      else st'.paragraphs) := by
    rw [iterParagraphs]
  by_cases hbuf : st'.buffer = []
  · rw [hout, if_neg (by simpa using hbuf)]
    have hps : st'.para_start = none := h1.mp hbuf
    refine ⟨?_, h4, ?_⟩
    · intro p hp
      have := h3 p hp
      rwa [hps, Option.getD_none, hpos] at this
    · intro q hq hw
      rcases h5 q (by omega) hw with ⟨p, hp, hc⟩ | ⟨s, hs, _⟩
      · exact ⟨p, hp, hc⟩
      · rw [hps] at hs
        exact absurd hs (by simp)
  · obtain ⟨s, hs⟩ : ∃ s, st'.para_start = some s := by
      cases hcase : st'.para_start with
      | none => exact absurd (h1.mpr hcase) hbuf
      | some s => exact ⟨s, rfl⟩
    have hsum := h2 s hs
    have hgd : st'.para_start.getD 0 = s := by rw [hs]; rfl
    rw [hout, if_pos (by simpa using hbuf)]
    refine ⟨?_, ?_, ?_⟩
    · intro p hp
      rcases List.mem_append.mp hp with hp | hp
      · have := h3 p hp
        rw [hs, Option.getD_some] at this
        omega
      · rcases List.mem_singleton.mp hp with rfl
        dsimp only
        rw [hgd]
        omega
    · rw [List.pairwise_append]
      refine ⟨h4, List.pairwise_singleton _ _, ?_⟩
      intro p hp p' hp'
      rcases List.mem_singleton.mp hp' with rfl
      have := h3 p hp
      rw [hs, Option.getD_some] at this
      dsimp only
      rw [hgd]
      exact this
    · intro q hq hw
      rcases h5 q (by omega) hw with ⟨p, hp, hc⟩ | ⟨s', hs', hc⟩
      · exact ⟨p, List.mem_append_left _ hp, hc⟩
      · rw [hs] at hs'
        injection hs' with hs'
        subst hs'
        refine ⟨⟨st'.buffer, st'.para_start.getD 0, st'.para_index⟩,
          List.mem_append_right _ (List.mem_singleton.mpr rfl), ?_, ?_⟩
        · dsimp only
          rw [hgd]
          exact hc
        · dsimp only
          rw [hgd]
          omega

theorem segmentSpans_fold_eq (t : List Char) :
    (iterParagraphs t).foldl (fun acc p => acc ++ paraSpans t p) [] =
      ((iterParagraphs t).map (paraSpans t)).flatten := by
  simpa using foldl_acc_append (paraSpans t) (iterParagraphs t) []

theorem segmentSpans_bounds (t : List Char) :
    ∀ sp ∈ segmentSpans t, sp.start < sp.stop ∧ sp.stop ≤ t.length := by
  intro sp hm
  rw [segmentSpans] at hm
  split at hm
  · simp only [gt_iff_lt] at hm
    split at hm
    · rcases List.mem_singleton.mp hm with rfl
      rename_i hgt
      exact ⟨hgt, trimSpan_le_right t 0 t.length⟩
    · exact absurd hm (List.not_mem_nil sp)
  · rw [segmentSpans_fold_eq] at hm
    obtain ⟨l, hl, hsp⟩ := List.mem_flatten.mp hm
    obtain ⟨p, hp, rfl⟩ := List.mem_map.mp hl
    obtain ⟨_, hlt, hle, _⟩ := paraSpans_bounds t p sp hsp
    exact ⟨hlt, le_trans hle ((iterParagraphs_facts t).1 p hp)⟩

theorem segmentSpans_chain (t : List Char) :
    (segmentSpans t).Pairwise (fun a b => a.stop ≤ b.start) := by
  rw [segmentSpans]
  split
  · simp only [gt_iff_lt]
    split
    · exact List.pairwise_singleton _ _
    · exact List.Pairwise.nil
  · rw [segmentSpans_fold_eq]
    rw [List.pairwise_flatten]
    refine ⟨?_, ?_⟩
    · intro l hl
      obtain ⟨p, _, rfl⟩ := List.mem_map.mp hl
      exact paraSpans_chain t p
    · rw [List.pairwise_map]
      refine List.Pairwise.imp_of_mem ?_ ((iterParagraphs_facts t).2.1)
      intro p p' hp hp' hle sp1 h1 sp2 h2
      obtain ⟨hs1, hlt1, hle1, _⟩ := paraSpans_bounds t p sp1 h1
      obtain ⟨hs2, hlt2, hle2, _⟩ := paraSpans_bounds t p' sp2 h2
      omega

theorem segmentSpans_cover (t : List Char) :
    ∀ q, q < t.length → pyIsSpace (t.getD q ' ') = false →
      ∃ sp ∈ segmentSpans t, sp.start ≤ q ∧ q < sp.stop := by
  intro q hq hw
  rw [segmentSpans]
  split
  · obtain ⟨hm1, hm2⟩ := trimSpan_mem t 0 t.length q (Nat.zero_le q) hq hw
    rw [if_pos (lt_of_le_of_lt hm1 hm2)]
    exact ⟨⟨(trimSpan t 0 t.length).1, (trimSpan t 0 t.length).2, 0⟩,
      List.mem_singleton.mpr rfl, hm1, hm2⟩
  · obtain ⟨p, hp, hc1, hc2⟩ := (iterParagraphs_facts t).2.2 q hq hw
    obtain ⟨sp, hsp, hd1, hd2⟩ := paraSpans_cover t p q hc1 hc2 hw
    rw [segmentSpans_fold_eq]
    exact ⟨sp, List.mem_flatten.mpr ⟨paraSpans t p,
      List.mem_map.mpr ⟨p, hp, rfl⟩, hsp⟩, hd1, hd2⟩

theorem paraEndF_ge (spans : List Span) (pi : ℕ) :
    ∀ fuel j, j ≤ paraEndF spans pi fuel j := by
  intro fuel
  induction fuel with
  | zero => intro j; simp [paraEndF]
  | succ n ih =>
    intro j
    rw [paraEndF]
    split
    · exact le_trans (Nat.le_succ j) (ih (j + 1))
    · exact le_refl j

theorem paraEndF_le (spans : List Span) (pi : ℕ) :
    ∀ fuel j, j ≤ spans.length → paraEndF spans pi fuel j ≤ spans.length := by
  intro fuel
  induction fuel with
  | zero => intro j h; simpa [paraEndF] using h
  | succ n ih =>
    intro j h
    rw [paraEndF]
    split
    · rename_i hc
      exact ih (j + 1) hc.1
    · exact h

theorem paraEndF_para (spans : List Span) (pi : ℕ) :
    ∀ fuel j k, j ≤ k → k < paraEndF spans pi fuel j →
      (spans.getD k default).para = pi := by
  intro fuel
  induction fuel with
  | zero => intro j k h1 h2; rw [paraEndF] at h2; omega
  | succ n ih =>
    intro j k h1 h2
    rw [paraEndF] at h2
    split at h2
    · rename_i hc
      rcases Nat.eq_or_lt_of_le h1 with rfl | hlt
      · exact hc.2
      · exact ih (j + 1) k hlt h2
    · omega

theorem paraEndF_succ (spans : List Span) (pi : ℕ) (fuel j : ℕ)
    (h : j < spans.length) (hp : (spans.getD j default).para = pi)
    (hf : 1 ≤ fuel) : j + 1 ≤ paraEndF spans pi fuel j := by
  obtain ⟨n, rfl⟩ : ∃ n, fuel = n + 1 := ⟨fuel - 1, by omega⟩
  rw [paraEndF]
  rw [if_pos ⟨h, hp⟩]
  exact paraEndF_ge spans pi n (j + 1)

theorem packF_ge (spans : List Span) (start : ℕ) (mc : ℤ) (pe : ℕ) :
    ∀ fuel j e, j ≤ (packF spans start mc pe fuel j e).1 := by
  intro fuel
  induction fuel with
  | zero => intro j e; simp [packF]
  | succ n ih =>
    intro j e
    rw [packF]
    split
    · exact le_trans (Nat.le_succ j) (ih (j + 1) _)
    · exact le_refl j

theorem packF_le (spans : List Span) (start : ℕ) (mc : ℤ) (pe : ℕ) :
    ∀ fuel j e, j ≤ pe → (packF spans start mc pe fuel j e).1 ≤ pe := by
  intro fuel
  induction fuel with
  | zero => intro j e h; simpa [packF] using h
  | succ n ih =>
    intro j e h
    rw [packF]
    split
    · rename_i hc
      exact ih (j + 1) _ hc.1
    · exact h

theorem packF_inv (spans : List Span) (start : ℕ) (mc : ℤ) (pe : ℕ) :
    ∀ fuel j e, 1 ≤ j → j - 1 < pe → e = (spans.getD (j - 1) default).stop →
      1 ≤ (packF spans start mc pe fuel j e).1 ∧
      (packF spans start mc pe fuel j e).1 - 1 < pe ∧
      (packF spans start mc pe fuel j e).2 =
        (spans.getD ((packF spans start mc pe fuel j e).1 - 1) default).stop := by
  intro fuel
  induction fuel with
  | zero => intro j e h1 h2 h3; exact ⟨h1, h2, h3⟩
  | succ n ih =>
    intro j e h1 h2 h3
    rw [packF]
    split
    · rename_i hc
      exact ih (j + 1) _ (by omega) (by simpa using hc.1) (by simp)
    · exact ⟨h1, h2, h3⟩

theorem backWalkF_le (spans : List Span) (idx : ℕ) (ov : ℤ) :
    ∀ fuel b ol, backWalkF spans idx ov fuel b ol ≤ b := by
  intro fuel
  induction fuel with
  | zero => intro b ol; simp [backWalkF]
  | succ n ih =>
    intro b ol
    rw [backWalkF]
    split
    · exact le_trans (ih (b - 1) _) (by omega)
    · exact le_refl b

theorem chunkLoopF_cover (t : List Char) (doc : String) (mc ov : ℤ)
    (spans : List Span)
    (hS1 : ∀ k, k < spans.length →
      (spans.getD k default).start < (spans.getD k default).stop)
    (hchain : ∀ i j, i < j → j < spans.length →
      (spans.getD i default).stop ≤ (spans.getD j default).start) :
    ∀ fuel idx, spans.length ≤ fuel + idx → ∀ k, idx ≤ k → k < spans.length →
      ∃ c ∈ chunkLoopF t doc mc ov spans fuel idx,
        c.start_idx ≤ (spans.getD k default).start ∧
        (spans.getD k default).stop ≤ c.end_idx := by
  intro fuel
  induction fuel with
  | zero => intro idx h k hk1 hk2; omega
  | succ n ih =>
    intro idx h k hk1 hk2
    have hidx : idx < spans.length := lt_of_le_of_lt hk1 hk2
    simp only [chunkLoopF]
    rw [if_pos hidx]
    set sp := spans.getD idx default with hsp
    set pe := paraEndF spans sp.para (spans.length - idx) idx with hpe
    set pk := packF spans sp.start mc pe (pe - (idx + 1)) (idx + 1)
      (max sp.stop sp.start) with hpk
    have hpe1 : idx + 1 ≤ pe :=
      paraEndF_succ spans sp.para (spans.length - idx) idx hidx rfl (by omega)
    have hpe2 : pe ≤ spans.length :=
      paraEndF_le spans sp.para (spans.length - idx) idx (le_of_lt hidx)
    have hpkinv := packF_inv spans sp.start mc pe (pe - (idx + 1)) (idx + 1)
      (max sp.stop sp.start) (by omega) (by simpa using hpe1)
      (by simp only [Nat.add_sub_cancel]; rw [Nat.max_eq_left (le_of_lt (hS1 idx hidx))])
    rw [← hpk] at hpkinv
    have hnj1 : idx + 1 ≤ pk.1 := by
      rw [hpk]; exact packF_ge spans sp.start mc pe _ (idx + 1) _
    have hnj2 : pk.1 ≤ pe := by
      rw [hpk]; exact packF_le spans sp.start mc pe _ (idx + 1) _ hpe1
    have hpara := paraEndF_para spans sp.para (spans.length - idx) idx
    have hcovhead : ∀ k', idx ≤ k' → k' < pk.1 →
        sp.start ≤ (spans.getD k' default).start ∧
        (spans.getD k' default).stop ≤ pk.2 := by
      intro k' h1 h2
      have hk'len : k' < spans.length := by omega
      constructor
      · rcases Nat.eq_or_lt_of_le h1 with rfl | hlt
        · exact le_refl _
        · exact le_trans (le_of_lt (hS1 idx hidx))
            (le_trans (hchain idx k' hlt hk'len) (le_refl _))
      · have hj : k' ≤ pk.1 - 1 := by omega
        rcases Nat.eq_or_lt_of_le hj with rfl | hlt
        · rw [hpkinv.2.2]
        · have hjlen : pk.1 - 1 < spans.length := by omega
          have := hchain k' (pk.1 - 1) hlt hjlen
          have h2 := hS1 (pk.1 - 1) hjlen
          rw [hpkinv.2.2]
          omega
    split
    · -- next_idx >= para_end: continue at para_end
      rename_i hb
      by_cases hk' : k < pe
      · refine ⟨_, List.mem_cons_self _ _, ?_⟩
        exact hcovhead k hk1 (by omega)
      · obtain ⟨c, hc, hcov⟩ := ih pe (by omega) k (by omega) hk2
        exact ⟨c, List.mem_cons_of_mem _ hc, hcov⟩
    · -- further split on the overlap branches
      split
      · -- overlap <= 0: continue at next_idx
        by_cases hk' : k < pk.1
        · exact ⟨_, List.mem_cons_self _ _, hcovhead k hk1 hk'⟩
        · obtain ⟨c, hc, hcov⟩ := ih pk.1 (by omega) k (by omega) hk2
          exact ⟨c, List.mem_cons_of_mem _ hc, hcov⟩
      · -- overlap walk-back: continue at next_start
        set back := backWalkF spans idx ov (pk.1 - idx) ((pk.1 : ℤ) - 1) 0 with hback
        have hble : back ≤ (pk.1 : ℤ) - 1 := by
          rw [hback]; exact backWalkF_le spans idx ov _ _ _
        have hns1 : idx + 1 ≤ (max (back + 1) ((idx : ℤ) + 1)).toNat := by
          have : ((idx : ℤ) + 1) ≤ max (back + 1) ((idx : ℤ) + 1) := le_max_right _ _
          omega
        have hns2 : (max (back + 1) ((idx : ℤ) + 1)).toNat ≤ pk.1 := by
          have h1 : back + 1 ≤ (pk.1 : ℤ) := by omega
          have h2 : ((idx : ℤ) + 1) ≤ (pk.1 : ℤ) := by
            exact_mod_cast hnj1
          have : max (back + 1) ((idx : ℤ) + 1) ≤ (pk.1 : ℤ) := max_le h1 h2
          omega
        by_cases hk' : k < (max (back + 1) ((idx : ℤ) + 1)).toNat
        · exact ⟨_, List.mem_cons_self _ _, hcovhead k hk1 (by omega)⟩
        · obtain ⟨c, hc, hcov⟩ := ih (max (back + 1) ((idx : ℤ) + 1)).toNat
            (by omega) k (by omega) hk2
          exact ⟨c, List.mem_cons_of_mem _ hc, hcov⟩

theorem chunkLoopF_struct (t : List Char) (doc : String) (mc ov : ℤ)
    (spans : List Span)
    (hS1 : ∀ k, k < spans.length →
      (spans.getD k default).start < (spans.getD k default).stop)
    (hchain : ∀ i j, i < j → j < spans.length →
      (spans.getD i default).stop ≤ (spans.getD j default).start) :
    ∀ fuel idx c, c ∈ chunkLoopF t doc mc ov spans fuel idx →
      ∃ i j, i ≤ j ∧ j < spans.length ∧
        (spans.getD i default).para = (spans.getD j default).para ∧
        c.start_idx = (spans.getD i default).start ∧
        c.end_idx = (spans.getD j default).stop ∧
        (spans.getD i default).stop ≤ c.end_idx := by
  intro fuel
  induction fuel with
  | zero => intro idx c hc; simp [chunkLoopF] at hc
  | succ n ih =>
    intro idx c hc
    by_cases hidx : idx < spans.length
    · simp only [chunkLoopF] at hc
      rw [if_pos hidx] at hc
      set sp := spans.getD idx default with hsp
      set pe := paraEndF spans sp.para (spans.length - idx) idx with hpe
      set pk := packF spans sp.start mc pe (pe - (idx + 1)) (idx + 1)
        (max sp.stop sp.start) with hpk
      have hpe1 : idx + 1 ≤ pe :=
        paraEndF_succ spans sp.para (spans.length - idx) idx hidx rfl (by omega)
      have hpe2 : pe ≤ spans.length :=
        paraEndF_le spans sp.para (spans.length - idx) idx (le_of_lt hidx)
      have hpkinv := packF_inv spans sp.start mc pe (pe - (idx + 1)) (idx + 1)
        (max sp.stop sp.start) (by omega) (by simpa using hpe1)
        (by simp only [Nat.add_sub_cancel]; rw [Nat.max_eq_left (le_of_lt (hS1 idx hidx))])
      rw [← hpk] at hpkinv
      have hnj1 : idx + 1 ≤ pk.1 := by
        rw [hpk]; exact packF_ge spans sp.start mc pe _ (idx + 1) _
      have hpara := paraEndF_para spans sp.para (spans.length - idx) idx
      have hstop : (spans.getD idx default).stop ≤ pk.2 := by
        have hj : idx ≤ pk.1 - 1 := by omega
        rcases Nat.eq_or_lt_of_le hj with heq | hlt
        · rw [hpkinv.2.2, ← heq]
        · have hjlen : pk.1 - 1 < spans.length := by omega
          have h1 := hchain idx (pk.1 - 1) hlt hjlen
          have h2 := hS1 (pk.1 - 1) hjlen
          rw [hpkinv.2.2]
          omega
      have hhead : ∃ i j, i ≤ j ∧ j < spans.length ∧
          (spans.getD i default).para = (spans.getD j default).para ∧
          sp.start = (spans.getD i default).start ∧
          pk.2 = (spans.getD j default).stop ∧
          (spans.getD i default).stop ≤ pk.2 := by
        refine ⟨idx, pk.1 - 1, by omega, by omega, ?_, by rw [← hsp], hpkinv.2.2, ?_⟩
        · rw [← hsp]
          exact (hpara (pk.1 - 1) (by omega) (by omega)).symm
        · exact hstop
      split at hc
      · rcases List.mem_cons.mp hc with rfl | hc
        · exact hhead
        · exact ih _ c hc
      · split at hc
        · rcases List.mem_cons.mp hc with rfl | hc
          · exact hhead
          · exact ih _ c hc
        · rcases List.mem_cons.mp hc with rfl | hc
          · exact hhead
          · exact ih _ c hc
    · simp only [chunkLoopF] at hc
      rw [if_neg hidx] at hc
      exact absurd hc (List.not_mem_nil c)

theorem segmentSpans_getD_bounds (t : List Char) :
    ∀ k, k < (segmentSpans t).length →
      ((segmentSpans t).getD k default).start < ((segmentSpans t).getD k default).stop ∧
      ((segmentSpans t).getD k default).stop ≤ t.length := by
  intro k hk
  have hm : (segmentSpans t).getD k default ∈ segmentSpans t := by
    rw [List.getD_eq_getElem _ _ hk]
    exact List.getElem_mem hk
  exact segmentSpans_bounds t _ hm

theorem segmentSpans_getD_chain (t : List Char) :
    ∀ i j, i < j → j < (segmentSpans t).length →
      ((segmentSpans t).getD i default).stop ≤ ((segmentSpans t).getD j default).start := by
  intro i j hij hj
  have hi : i < (segmentSpans t).length := lt_trans hij hj
  have := List.pairwise_iff_getElem.mp (segmentSpans_chain t) i j hi hj hij
  rwa [List.getD_eq_getElem _ _ hi, List.getD_eq_getElem _ _ hj]

/-- C6 (amended): for every document text and all chunking parameters, every
non-whitespace character of the text belongs to at least one produced passage.
(Whitespace-only positions — blank separator lines and trimmed edges — are the
only characters that can be dropped.) -/
theorem C6_coverage_nonspace (t : List Char) (doc : String) (mc ov : ℤ)
    (q : ℕ) (hq : q < t.length) (hw : pyIsSpace (t.getD q ' ') = false) :
    ∃ c ∈ simple_paragraph_chunk t doc mc ov,
      c.start_idx ≤ q ∧ q < c.end_idx := by
  obtain ⟨sp, hsp, h1, h2⟩ := segmentSpans_cover t q hq hw
  obtain ⟨k, hk, hkeq⟩ := List.mem_iff_getElem.mp hsp
  have hgd : (segmentSpans t).getD k default = sp := by
    rw [List.getD_eq_getElem _ _ hk]
    exact hkeq
  rw [simple_paragraph_chunk]
  split
  · rename_i hnil
    rw [hnil] at hsp
    exact absurd hsp (List.not_mem_nil sp)
  · obtain ⟨c, hc, hcov1, hcov2⟩ := chunkLoopF_cover t doc mc ov (segmentSpans t)
      (fun k' hk' => (segmentSpans_getD_bounds t k' hk').1)
      (segmentSpans_getD_chain t)
      (segmentSpans t).length 0 (by omega) k (Nat.zero_le k) hk
    rw [hgd] at hcov1 hcov2
    exact ⟨c, hc, by omega, by omega⟩

/-- Witness for C6 (amended) at text `"a\n\nb"`, position 0 (the letter a). -/
theorem C6_coverage_nonspace_witness :
    ∃ c ∈ simple_paragraph_chunk demo6Text "d" 800 120,
      c.start_idx ≤ 0 ∧ 0 < c.end_idx :=
  C6_coverage_nonspace demo6Text "d" 800 120 0 (by decide) (by decide)

/-- Counterexample to C6 as stated: in the non-empty text `"a\n\nb"` with
`overlap = 120 < max_chars = 800`, position 1 (a newline) is in no passage. -/
theorem C6_counterexample :
    demo6Text ≠ [] ∧ (120 : ℤ) < 800 ∧ 1 < demo6Text.length ∧
    ¬ ∃ c ∈ simple_paragraph_chunk demo6Text "d" 800 120,
        c.start_idx ≤ 1 ∧ 1 < c.end_idx := by
  decide

/-- C10: every passage starts at the trimmed start of some sentence-segment
`i` and ends at the trimmed end of a later-or-equal segment `j` of the same
paragraph; the passage always contains segment `i` whole, so a single segment
longer than `max_chars` yields a passage longer than `max_chars`. -/
theorem C10_chunk_boundaries (t : List Char) (doc : String) (mc ov : ℤ)
    (c : Chunk) (hc : c ∈ simple_paragraph_chunk t doc mc ov) :
    ∃ i j, i ≤ j ∧ j < (segmentSpans t).length ∧
      ((segmentSpans t).getD i default).para = ((segmentSpans t).getD j default).para ∧
      c.start_idx = ((segmentSpans t).getD i default).start ∧
      c.end_idx = ((segmentSpans t).getD j default).stop ∧
      ((segmentSpans t).getD i default).stop ≤ c.end_idx := by
  rw [simple_paragraph_chunk] at hc
  split at hc
  · exact absurd hc (List.not_mem_nil c)
  · exact chunkLoopF_struct t doc mc ov (segmentSpans t)
      (fun k' hk' => (segmentSpans_getD_bounds t k' hk').1)
      (segmentSpans_getD_chain t) _ _ c hc

/-- Witness for C10 at `"abcdef."` with `max_chars = 3`: the single passage
spans offsets 0–7, exceeding `max_chars`. -/
theorem C10_chunk_boundaries_witness :
    (∃ i j, i ≤ j ∧ j < (segmentSpans demoLong).length ∧
      ((segmentSpans demoLong).getD i default).para =
        ((segmentSpans demoLong).getD j default).para ∧
      ((simple_paragraph_chunk demoLong "d" 3 1).getD 0 default).start_idx =
        ((segmentSpans demoLong).getD i default).start ∧
      ((simple_paragraph_chunk demoLong "d" 3 1).getD 0 default).end_idx =
        ((segmentSpans demoLong).getD j default).stop ∧
      ((segmentSpans demoLong).getD i default).stop ≤
        ((simple_paragraph_chunk demoLong "d" 3 1).getD 0 default).end_idx) ∧
    ((simple_paragraph_chunk demoLong "d" 3 1).getD 0 default).end_idx = 7 ∧
    ((simple_paragraph_chunk demoLong "d" 3 1).getD 0 default).start_idx = 0 ∧
    (3 : ℤ) < 7 :=
  ⟨C10_chunk_boundaries demoLong "d" 3 1 _ (by decide), by decide, by decide, by decide⟩

end Chunking

namespace Breaker

theorem failN_closed (threshold : ℤ) (times : ℕ → ℚ) (ht : 0 < threshold) :
    ∀ k : ℕ, (k : ℤ) < threshold →
      (failN threshold times k).state = .closed ∧
      (failN threshold times k).failure_count = k := by
  intro k
  induction k with
  | zero => intro _; exact ⟨rfl, rfl⟩
  | succ n ih =>
    intro h
    obtain ⟨hs, hc⟩ := ih (by push_cast at h ⊢; omega)
    rw [failN, record_failure]
    rw [if_neg (by omega)]
    rw [if_neg (by rw [hs]; exact fun hh => CBState.noConfusion hh)]
    have hmin : min ((failN threshold times n).failure_count + 1) threshold
        = (n : ℤ) + 1 := by
      rw [hc]
      push_cast at h
      omega
    simp only [hmin]
    rw [if_neg (by push_cast at h; omega)]
    constructor
    · rfl
    · push_cast
      rfl

/-- C3: with `failure_threshold > 0`, exactly `failure_threshold` consecutive
failures open the breaker (fewer leave it closed); `should_skip` is true while
the cooldown has not elapsed and leaves the state unchanged; once
`reset_seconds` have elapsed the next `should_skip` is false and moves the
state to `half_open`; `record_success` resets to `closed` with failure count
0; and a failure while already open returns false (no re-trigger), keeps the
state open and only refreshes `opened_at`. -/
theorem C3_circuit_breaker (threshold : ℤ) (ht : 0 < threshold)
    (reset_seconds : ℚ) (times : ℕ → ℚ) :
    (∀ k : ℕ, (k : ℤ) < threshold →
      (failN threshold times k).state = .closed ∧
      (failN threshold times k).failure_count = k) ∧
    ((failN threshold times threshold.toNat).state = .opened ∧
     (failN threshold times threshold.toNat).opened_at =
       times (threshold.toNat - 1)) ∧
    (∀ cb : CircuitBreaker, cb.state = .opened → ∀ now : ℚ,
      now - cb.opened_at < reset_seconds →
      (should_skip cb now threshold reset_seconds).1 = true ∧
      (should_skip cb now threshold reset_seconds).2 = cb) ∧
    (∀ cb : CircuitBreaker, cb.state = .opened → ∀ now : ℚ,
      reset_seconds ≤ now - cb.opened_at →
      (should_skip cb now threshold reset_seconds).1 = false ∧
      (should_skip cb now threshold reset_seconds).2.state = .half_open) ∧
    (∀ cb : CircuitBreaker,
      (record_success cb).2.state = .closed ∧
      (record_success cb).2.failure_count = 0) ∧
    (∀ cb : CircuitBreaker, cb.state = .opened → ∀ now : ℚ,
      (record_failure cb now threshold).1 = false ∧
      (record_failure cb now threshold).2.state = .opened ∧
      (record_failure cb now threshold).2.opened_at = now) := by
  refine ⟨failN_closed threshold times ht, ?_, ?_, ?_, ?_, ?_⟩
  · have hpred : ((threshold.toNat - 1 : ℕ) : ℤ) < threshold := by omega
    obtain ⟨hs, hc⟩ := failN_closed threshold times ht (threshold.toNat - 1) hpred
    have hsucc : threshold.toNat = (threshold.toNat - 1) + 1 := by omega
    rw [hsucc, failN, record_failure]
    rw [if_neg (by omega)]
    rw [if_neg (by rw [hs]; exact fun hh => CBState.noConfusion hh)]
    have hmin : min ((failN threshold times (threshold.toNat - 1)).failure_count + 1)
        threshold = threshold := by
      rw [hc]
      omega
    simp only [hmin]
    rw [if_pos (le_refl threshold)]
    exact ⟨rfl, rfl⟩
  · intro cb hcb now hn
    rw [should_skip]
    rw [if_neg (by omega)]
    rw [if_neg (by rw [hcb]; simp)]
    rw [if_neg (not_le.mpr hn)]
    exact ⟨rfl, rfl⟩
  · intro cb hcb now hn
    rw [should_skip]
    rw [if_neg (by omega)]
    rw [if_neg (by rw [hcb]; simp)]
    rw [if_pos hn]
    exact ⟨rfl, rfl⟩
  · intro cb
    exact ⟨rfl, rfl⟩
  · intro cb hcb now
    rw [record_failure]
    rw [if_neg (by omega)]
    rw [if_pos hcb]
    exact ⟨rfl, hcb, rfl⟩

/-- Witness for C3 at `threshold = 2`, `reset_seconds = 5`, failure times
`0, 1, 2, …`. -/
theorem C3_circuit_breaker_witness :
    (failN 2 (fun i => (i : ℚ)) 1).state = .closed ∧
    (failN 2 (fun i => (i : ℚ)) 2).state = .opened ∧
    (should_skip ⟨2, .opened, 1⟩ 3 2 5).1 = true ∧
    (should_skip ⟨2, .opened, 1⟩ 6 2 5).2.state = .half_open ∧
    (record_success ⟨1, .half_open, 0⟩).2.state = .closed := by
  have h := C3_circuit_breaker 2 (by omega) 5 (fun i => (i : ℚ))
  refine ⟨(h.1 1 (by omega)).1, ?_, ?_, ?_, ?_⟩
  · have := h.2.1.1
    norm_num at this
    exact this
  · exact (h.2.2.1 ⟨2, .opened, 1⟩ rfl 3 (by norm_num)).1
  · exact (h.2.2.2.1 ⟨2, .opened, 1⟩ rfl 6 (by norm_num)).2
  · exact (h.2.2.2.2.1 ⟨1, .half_open, 0⟩).1

end Breaker

namespace Queue

theorem restore_foldl (defaultMax : ℤ) (freshIds : ℕ → String) :
    ∀ (l : List (ℕ × RawRecord)) (acc : RestoreOutcome),
      l.foldl (restoreStep defaultMax freshIds) acc =
        ⟨acc.events ++ (l.map (fun ir => (restoreDelta defaultMax freshIds ir).events)).flatten,
         acc.removed ++ (l.map (fun ir => (restoreDelta defaultMax freshIds ir).removed)).flatten,
         acc.queued ++ (l.map (fun ir => (restoreDelta defaultMax freshIds ir).queued)).flatten⟩ := by
  intro l
  induction l with
  | nil => intro acc; simp
  | cons ir rest ih =>
    intro acc
    rw [List.foldl_cons, ih]
    simp only [List.map_cons, List.flatten_cons]
    rw [restoreStep, restoreDelta, restoreStep]
    split
    · simp
    · split
      · simp
      · simp

/-- C5: at restart, for every persisted record that hydrates to a job: if
`attempts < max_attempts` the job is marked `queued` again with a `resumed_at`
timestamp and pushed back onto the in-memory queue; if
`attempts >= max_attempts` it is marked `failed` and its durable record is
removed, and it contributes nothing to the queue (it is never executed).
Hydration keeps a well-formed record's `attempts` unchanged. -/
theorem C5_crash_recovery (defaultMax : ℤ) (freshIds : ℕ → String)
    (records : List RawRecord) :
    ((_restore_pending_jobs defaultMax freshIds records).queued =
      (records.enum.map
        (fun ir => (restoreDelta defaultMax freshIds ir).queued)).flatten) ∧
    (∀ ir ∈ records.enum, ∀ job,
      _hydrate_job defaultMax (freshIds ir.1) ir.2 = some job →
      (job.attempts < job.max_attempts →
        (restoreDelta defaultMax freshIds ir).queued = [job] ∧
        job ∈ (_restore_pending_jobs defaultMax freshIds records).queued ∧
        (⟨job.job_id, .queued, job.attempts, true⟩ : HistoryEvent) ∈
          (_restore_pending_jobs defaultMax freshIds records).events) ∧
      (job.max_attempts ≤ job.attempts →
        (restoreDelta defaultMax freshIds ir).queued = [] ∧
        (⟨job.job_id, .failed, job.attempts, false⟩ : HistoryEvent) ∈
          (_restore_pending_jobs defaultMax freshIds records).events ∧
        job.job_id ∈ (_restore_pending_jobs defaultMax freshIds records).removed)) ∧
    (∀ (r : RawRecord) (a : ℤ) (fresh : String), r.payload_valid = true →
      r.attempts = some a → 0 ≤ a →
      ∃ job, _hydrate_job defaultMax fresh r = some job ∧ job.attempts = a) := by
  refine ⟨?_, ?_, ?_⟩
  · rw [_restore_pending_jobs, restore_foldl]
    simp
  · intro ir hir job hjob
    have hq : (_restore_pending_jobs defaultMax freshIds records).queued =
        (records.enum.map
          (fun ir => (restoreDelta defaultMax freshIds ir).queued)).flatten := by
      rw [_restore_pending_jobs, restore_foldl]
      simp
    have he : (_restore_pending_jobs defaultMax freshIds records).events =
        (records.enum.map
          (fun ir => (restoreDelta defaultMax freshIds ir).events)).flatten := by
      rw [_restore_pending_jobs, restore_foldl]
      simp
    have hr : (_restore_pending_jobs defaultMax freshIds records).removed =
        (records.enum.map
          (fun ir => (restoreDelta defaultMax freshIds ir).removed)).flatten := by
      rw [_restore_pending_jobs, restore_foldl]
      simp
    constructor
    · intro hlt
      have hdelta : (restoreDelta defaultMax freshIds ir) =
          ⟨[⟨job.job_id, .queued, job.attempts, true⟩], [], [job]⟩ := by
        rw [restoreDelta, restoreStep, hjob]
        dsimp only
        rw [if_neg (by omega)]
        simp
      refine ⟨by rw [hdelta], ?_, ?_⟩
      · rw [hq]
        exact List.mem_flatten.mpr ⟨[job], List.mem_map.mpr ⟨ir, hir, by rw [hdelta]⟩,
          List.mem_singleton.mpr rfl⟩
      · rw [he]
        exact List.mem_flatten.mpr ⟨_, List.mem_map.mpr ⟨ir, hir, rfl⟩,
          by rw [hdelta]; exact List.mem_singleton.mpr rfl⟩
    · intro hge
      have hdelta : (restoreDelta defaultMax freshIds ir) =
          ⟨[⟨job.job_id, .failed, job.attempts, false⟩], [job.job_id], []⟩ := by
        rw [restoreDelta, restoreStep, hjob]
        dsimp only
        rw [if_pos (by omega)]
        simp
      refine ⟨by rw [hdelta], ?_, ?_⟩
      · rw [he]
        exact List.mem_flatten.mpr ⟨_, List.mem_map.mpr ⟨ir, hir, rfl⟩,
          by rw [hdelta]; exact List.mem_singleton.mpr rfl⟩
      · rw [hr]
        exact List.mem_flatten.mpr ⟨_, List.mem_map.mpr ⟨ir, hir, rfl⟩,
          by rw [hdelta]; exact List.mem_singleton.mpr rfl⟩
  · intro r a fresh hval hatt ha
    refine ⟨_, by rw [_hydrate_job, if_neg (by simp [hval])], ?_⟩
    dsimp only
    rw [hatt]
    dsimp only
    rw [if_neg (by omega)]

/-- Witness for C5: two persisted records, one with `attempts = 1 < 3` (re-queued
with attempts unchanged), one with `attempts = 3 >= 3` (failed, removed). -/
theorem C5_crash_recovery_witness :
    ((_restore_pending_jobs 3 (fun _ => "u")
        [⟨true, some "a", some "x", false, some 1, some 3⟩,
         ⟨true, some "b", some "x", false, some 3, some 3⟩]).queued =
      [⟨"a", "x", false, 1, 3⟩]) ∧
    ((_restore_pending_jobs 3 (fun _ => "u")
        [⟨true, some "a", some "x", false, some 1, some 3⟩,
         ⟨true, some "b", some "x", false, some 3, some 3⟩]).events =
      [⟨"a", .queued, 1, true⟩, ⟨"b", .failed, 3, false⟩]) ∧
    ((_restore_pending_jobs 3 (fun _ => "u")
        [⟨true, some "a", some "x", false, some 1, some 3⟩,
         ⟨true, some "b", some "x", false, some 3, some 3⟩]).removed = ["b"]) ∧
    (⟨"a", "x", false, 1, 3⟩ : UploadIngestJob) ∈
      (_restore_pending_jobs 3 (fun _ => "u")
        [⟨true, some "a", some "x", false, some 1, some 3⟩,
         ⟨true, some "b", some "x", false, some 3, some 3⟩]).queued := by
  refine ⟨by decide, by decide, by decide, ?_⟩
  have h := (C5_crash_recovery 3 (fun _ => "u")
    [⟨true, some "a", some "x", false, some 1, some 3⟩,
     ⟨true, some "b", some "x", false, some 3, some 3⟩]).2.1
    (0, ⟨true, some "a", some "x", false, some 1, some 3⟩) (by decide)
    ⟨"a", "x", false, 1, 3⟩ (by decide)
  exact (h.1 (by decide)).2.1

end Queue

namespace Storage

theorem find?_map_replace (key : String) (d : Storage.Document)
    (hd : d.doc_id = key) :
    ∀ m : List Document, m.any (fun e => e.doc_id == key) = true →
      (m.map (fun e => if e.doc_id == key then d else e)).find?
        (fun e => e.doc_id == key) = some d := by
  intro m
  induction m with
  | nil => intro h; simp at h
  | cons e rest ih =>
    intro h
    simp only [List.map_cons]
    by_cases he : (e.doc_id == key) = true
    · rw [if_pos he]
      exact List.find?_cons_of_pos _ (by simp [hd])
    · rw [if_neg he]
      rw [@List.find?_cons_of_neg _ (fun e => e.doc_id == key) e
        (List.map (fun e => if (e.doc_id == key) = true then d else e) rest) he]
      refine ih ?_
      simp only [List.any_cons, he, Bool.false_or] at h
      exact h

theorem find?_append_fresh (key : String) (d : Document) (hd : d.doc_id = key) :
    ∀ m : List Document, m.any (fun e => e.doc_id == key) = false →
      (m ++ [d]).find? (fun e => e.doc_id == key) = some d := by
  intro m
  induction m with
  | nil =>
    intro _
    simp only [List.nil_append]
    exact List.find?_cons_of_pos _ (by simp [hd])
  | cons e rest ih =>
    intro h
    simp only [List.any_cons, Bool.or_eq_false_iff] at h
    rw [List.cons_append]
    rw [@List.find?_cons_of_neg _ (fun e => e.doc_id == key) e (rest ++ [d])
      (by simp [h.1])]
    exact ih h.2

theorem dictGet_dictInsert_self (m : List Document) (d : Document) :
    dictGet (dictInsert m d) d.doc_id = some d := by
  rw [dictInsert, dictGet]
  split
  · rename_i hany
    exact find?_map_replace d.doc_id d rfl m hany
  · rename_i hany
    exact find?_append_fresh d.doc_id d rfl m (by simpa using hany)

/-- C8: `upsert_document` keeps the incoming version (1, as the ingestion
pipeline always constructs documents with `version = 1`) when the `doc_id` is
new, strictly increments the stored version (`new = old + 1`) when the
`doc_id` already exists, and the stored manifest afterwards maps the `doc_id`
to the returned document — so iterated re-ingests give a strictly monotonic
version sequence. -/
theorem C8_version_monotonic (manifest : List Document) (d : Document)
    (now : ℚ) :
    (dictGet (manifestDict manifest) d.doc_id = none →
      (upsert_document manifest d now).1.version = d.version) ∧
    (d.version = 1 → dictGet (manifestDict manifest) d.doc_id = none →
      (upsert_document manifest d now).1.version = 1) ∧
    (∀ e, dictGet (manifestDict manifest) d.doc_id = some e →
      (upsert_document manifest d now).1.version = e.version + 1 ∧
      e.version < (upsert_document manifest d now).1.version) ∧
    dictGet (upsert_document manifest d now).2 d.doc_id =
      some (upsert_document manifest d now).1 := by
  refine ⟨?_, ?_, ?_, ?_⟩
  · intro h
    rw [upsert_document]
    simp [h]
  · intro h1 h
    rw [upsert_document]
    simp [h, h1]
  · intro e h
    have hv : (upsert_document manifest d now).1.version = e.version + 1 := by
      rw [upsert_document]
      simp [h]
    exact ⟨hv, by omega⟩
  · rw [upsert_document]
    cases h : dictGet (manifestDict manifest) d.doc_id with
    | none =>
      simp only [h]
      exact dictGet_dictInsert_self (manifestDict manifest) _
    | some e =>
      simp only [h]
      exact dictGet_dictInsert_self (manifestDict manifest) _

/-- Witness for C8: first upsert of `doc_id = "a"` stores version 1, a second
upsert of the same `doc_id` stores version 2. -/
theorem C8_version_monotonic_witness :
    ((upsert_document [] ⟨"a", "s", "auto", none, none, none, none, 1, 0, []⟩ 0).1.version = 1) ∧
    ((upsert_document
        (upsert_document [] ⟨"a", "s", "auto", none, none, none, none, 1, 0, []⟩ 0).2
        ⟨"a", "s", "auto", none, none, none, none, 1, 0, []⟩ 1).1.version = 2) := by
  constructor
  · exact (C8_version_monotonic [] ⟨"a", "s", "auto", none, none, none, none, 1, 0, []⟩ 0).2.1
      rfl (by decide)
  · have h := (C8_version_monotonic
      (upsert_document [] ⟨"a", "s", "auto", none, none, none, none, 1, 0, []⟩ 0).2
      ⟨"a", "s", "auto", none, none, none, none, 1, 0, []⟩ 1).2.2.1
      ⟨"a", "s", "auto", none, none, none, none, 1, 0, []⟩ (by decide)
    rw [h.1]
    decide
end Storage

namespace Ingest

theorem chunk_empty (doc : String) (mc ov : ℤ) :
    Chunking.simple_paragraph_chunk [] doc mc ov = [] := rfl

theorem mk_length_pos {l : List Char} (h : l ≠ []) :
    ¬ (String.mk l).length < 1 := by
  have hlen : (String.mk l).length = l.length := rfl
  rw [hlen]
  have := List.length_pos.mpr h
  omega

/-- C9 (amended): a missing file fails fast with `FileNotFoundError` and an
invalid (empty after sanitization) `doc_id` fails fast with a pydantic
validation error, both surfaced synchronously with no retry; but empty
content does NOT raise — it completes as a successful zero-chunk ingestion
with a `succeeded` job-history entry. -/
theorem C9_permanent_input_errors
    (manifest : List Storage.Document) (pn ps : List Char)
    (did : Option (List Char)) (lang : String)
    (url dom fre : Option String) (tags : List (List Char))
    (sha : List Char → String) (mc ov : ℤ) (now : ℚ) :
    (ingest_file manifest none pn ps did lang url dom fre tags sha mc ov now =
      .error .fileNotFound) ∧
    (∀ content src,
      _sanitize_doc_id (match did with
        | some d => if d ≠ [] then d else src
        | none => src) = [] →
      ingest_content manifest content src did lang url dom fre tags sha mc ov
        now = .error (.validationError "doc_id")) ∧
    (∀ src : List Char,
      _sanitize_doc_id (match did with
        | some d => if d ≠ [] then d else src
        | none => src) ≠ [] →
      src ≠ [] →
      ∃ doc m2, ingest_content manifest [] src did lang url dom fre tags sha
        mc ov now = .ok (⟨doc, 0⟩, m2, "succeeded")) := by
  refine ⟨rfl, ?_, ?_⟩
  · intro content src h
    simp only [ingest_content]
    rw [h]
    rw [Storage.mkDocument]
    rw [if_pos (by decide)]
  · intro src h1 h2
    simp only [ingest_content]
    rw [show normalize_text [] = ([] : List Char) from rfl]
    rw [chunk_empty]
    rw [Storage.mkDocument]
    rw [if_neg (mk_length_pos h1)]
    rw [if_neg (mk_length_pos h2)]
    rw [if_neg (by omega)]
    exact ⟨_, _, rfl⟩

/-- Counterexample to C9 as stated: ingesting empty content with a valid
`doc_id` returns a successful zero-chunk result with a `succeeded` history
entry instead of raising an error. -/
theorem C9_counterexample :
    ingest_content [] [] ("doc".toList) none "auto" none none none []
      (fun _ => "h") 800 120 0 =
      .ok (⟨⟨"doc", "doc", "auto", none, none, none, some "h", 1, 0, []⟩, 0⟩,
        [⟨"doc", "doc", "auto", none, none, none, some "h", 1, 0, []⟩],
        "succeeded") := by
  decide

/-- Witness for C9 (amended) at concrete inputs. -/
theorem C9_permanent_input_errors_witness :
    (ingest_file [] none ("f.txt".toList) ("f".toList) none "auto" none none
      none [] (fun _ => "h") 800 120 0 = .error .fileNotFound) ∧
    (∃ doc m2, ingest_content [] [] ("src".toList) none "auto" none none none
      [] (fun _ => "h") 800 120 0 = .ok (⟨doc, 0⟩, m2, "succeeded")) :=
  ⟨(C9_permanent_input_errors [] ("f.txt".toList) ("f".toList) none "auto"
      none none none [] (fun _ => "h") 800 120 0).1,
   (C9_permanent_input_errors [] ("f.txt".toList) ("f".toList) none "auto"
      none none none [] (fun _ => "h") 800 120 0).2.2 ("src".toList)
      (by decide) (by decide)⟩

end Ingest

namespace Rerank

theorem retryLoop_raises (e : PyExc) (n : ℕ) (oracle : ℕ → AttemptOutcome)
    (ho : ∀ a, oracle a = .raises e) :
    ∀ left attempt, 1 ≤ left →
      retryLoop oracle n left attempt = (.raised e, attempt + left - 1) := by
  intro left
  induction left with
  | zero => intro attempt h; omega
  | succ m ih =>
    intro attempt _
    rw [retryLoop, ho attempt]
    by_cases hm : m = 0
    · subst hm
      simp
    · simp only [if_neg hm]
      rw [ih (attempt + 1) (by omega)]
      have : attempt + 1 + m - 1 = attempt + (m + 1) - 1 := by omega
      rw [this]

theorem fallback_getD (documents : List String) :
    (_fallback_scores documents).length = documents.length ∧
    ∀ i, i < documents.length →
      (_fallback_scores documents).getD i (0, 0) =
        ((i : ℤ), (Nat.cast (documents.length - i) : ℚ)) := by
  constructor
  · simp [_fallback_scores]
  · intro i hi
    have hlen : i < (_fallback_scores documents).length := by
      simp [_fallback_scores]
      exact hi
    rw [List.getD_eq_getElem _ _ hlen]
    simp [_fallback_scores]

/-- C4: `rerank_async` never raises to its caller (the model is a total
function into score lists): with an always-raising client — any exception,
retryable or not — and any attempt budget, and likewise when the circuit is
open, the caller receives exactly the deterministic input-order fallback
scores; with a client that always raises `ReadTimeout` and `max_attempts = 1`
the result is `[(0, n), (1, n-1), ..., (n-1, 1)]`. -/
theorem C4_rerank_fallback (documents : List String) (hdocs : documents ≠ [])
    (cb : Breaker.CircuitBreaker) (now : ℚ) (ft : ℤ) (rs : ℚ) :
    (∀ (enabled : Bool) (marw : ℤ) (e : PyExc),
      (rerank_async documents enabled cb now marw ft rs
        (fun _ => .raises e)).result = _fallback_scores documents) ∧
    (∀ (oracle : ℕ → AttemptOutcome) (marw : ℤ),
      (Breaker.should_skip cb now ft rs).1 = true →
      (rerank_async documents true cb now marw ft rs oracle).result =
        _fallback_scores documents) ∧
    ((rerank_async documents true cb now 1 ft rs
        (fun _ => .raises .readTimeout)).result.length = documents.length ∧
     ∀ i, i < documents.length →
      (rerank_async documents true cb now 1 ft rs
          (fun _ => .raises .readTimeout)).result.getD i (0, 0) =
        ((i : ℤ), (Nat.cast (documents.length - i) : ℚ))) := by
  have hall : ∀ (enabled : Bool) (marw : ℤ) (e : PyExc),
      (rerank_async documents enabled cb now marw ft rs
        (fun _ => .raises e)).result = _fallback_scores documents := by
    intro enabled marw e
    rw [rerank_async]
    rw [if_neg hdocs]
    cases enabled with
    | false => rfl
    | true =>
      rw [if_neg (by simp)]
      simp only
      split
      · rfl
      · rw [retryLoop_raises e documents.length _ (fun _ => rfl) _ 1
          (by omega)]
  refine ⟨hall, ?_, ?_⟩
  · intro oracle marw hskip
    rw [rerank_async]
    rw [if_neg hdocs]
    rw [if_neg (by simp)]
    simp only [hskip]
    rfl
  · constructor
    · rw [hall true 1 .readTimeout]
      exact (fallback_getD documents).1
    · intro i hi
      rw [hall true 1 .readTimeout]
      exact (fallback_getD documents).2 i hi

/-- Witness for C4 with two documents: the always-`ReadTimeout` client with
`max_attempts = 1` yields `[(0, 2), (1, 1)]`. -/
theorem C4_rerank_fallback_witness :
    (rerank_async ["a", "b"] true Breaker.initBreaker 0 1 5 30
      (fun _ => .raises .readTimeout)).result = [(0, 2), (1, 1)] := by
  have h := (C4_rerank_fallback ["a", "b"] (by decide) Breaker.initBreaker
    0 5 30).1 true 1 .readTimeout
  rw [h]
  decide

/-- Counterexample to C7 as stated: HTTP 404 is not in the closed retryable
list, yet the rerank retry loop retries it — with `max_attempts = 3` the
client is invoked 3 times, not once, before falling back. -/
theorem C7_counterexample :
    _should_retry_stream_http_status 404 = false ∧
    (rerank_async ["a", "b"] true Breaker.initBreaker 0 3 5 30
      (fun _ => .raises (.httpStatusError 404))).attempts_used = 3 ∧
    (rerank_async ["a", "b"] true Breaker.initBreaker 0 3 5 30
      (fun _ => .raises (.httpStatusError 404))).result =
      _fallback_scores ["a", "b"] := by
  refine ⟨rfl, ?_, ?_⟩ <;> decide

/-- C7 (amended): the rerank retry loop has no retryable-condition filter —
tenacity's default retries EVERY exception, so any always-failing client
(retryable or not) consumes exactly `max(max_attempts, 1)` attempts before the
error falls through to the deterministic fallback; the closed list (408, 409,
429 and 5xx) is the chat-stream retry predicate
`_should_retry_stream_http_status`. -/
theorem C7_retry_all_exceptions (documents : List String)
    (hdocs : documents ≠ []) (cb : Breaker.CircuitBreaker) (now : ℚ)
    (ft : ℤ) (rs : ℚ)
    (hskip : (Breaker.should_skip cb now ft rs).1 = false)
    (marw : ℤ) (e : PyExc) :
    (rerank_async documents true cb now marw ft rs
      (fun _ => .raises e)).attempts_used = (max marw 1).toNat ∧
    (rerank_async documents true cb now marw ft rs
      (fun _ => .raises e)).result = _fallback_scores documents ∧
    (∀ st : ℕ, _should_retry_stream_http_status st = true ↔
      (st = 408 ∨ st = 409 ∨ st = 429 ∨ (500 ≤ st ∧ st ≤ 599))) := by
  have hmax : 1 ≤ (max marw 1).toNat := by
    have h1 : (1 : ℤ) ≤ max marw 1 := le_max_right _ _
    omega
  refine ⟨?_, ?_, ?_⟩
  · rw [rerank_async]
    rw [if_neg hdocs]
    rw [if_neg (by simp)]
    simp only [hskip]
    rw [if_neg (by simp)]
    rw [retryLoop_raises e documents.length _ (fun _ => rfl) _ 1 hmax]
    show 1 + (max marw 1).toNat - 1 = (max marw 1).toNat
    omega
  · rw [rerank_async]
    rw [if_neg hdocs]
    rw [if_neg (by simp)]
    simp only [hskip]
    rw [if_neg (by simp)]
    rw [retryLoop_raises e documents.length _ (fun _ => rfl) _ 1 hmax]
  · intro st
    rw [_should_retry_stream_http_status]
    by_cases h429 : st = 429
    · subst h429
      simp
    · rw [if_neg h429]
      by_cases h89 : st = 408 ∨ st = 409
      · rw [if_pos h89]
        constructor
        · intro _
          rcases h89 with h | h
          · exact Or.inl h
          · exact Or.inr (Or.inl h)
        · intro _
          rfl
      · rw [if_neg h89]
        simp only [Bool.and_eq_true, decide_eq_true_eq]
        constructor
        · intro hh
          exact Or.inr (Or.inr (Or.inr hh))
        · intro hh
          rcases hh with h | h | h | h
          · exact absurd (Or.inl h) h89
          · exact absurd (Or.inr h) h89
          · exact absurd h h429
          · exact h

/-- Witness for C7 (amended): a non-retryable `ConnectError`-free case — an
always-`otherError` client with `max_attempts = 2` uses exactly 2 attempts. -/
theorem C7_retry_all_exceptions_witness :
    (rerank_async ["a"] true Breaker.initBreaker 0 2 5 30
      (fun _ => .raises .otherError)).attempts_used = 2 ∧
    (rerank_async ["a"] true Breaker.initBreaker 0 2 5 30
      (fun _ => .raises .otherError)).result = _fallback_scores ["a"] := by
  have h := C7_retry_all_exceptions ["a"] (by decide) Breaker.initBreaker 0 5
    30 (by decide) 2 .otherError
  refine ⟨?_, h.2.1⟩
  rw [h.1]
  decide

end Rerank

namespace Index

theorem pairFstLt_sublist (l : List (ℕ × ℚ))
    (hinc : (l.map Prod.fst).Pairwise (· < ·)) (a b : ℕ × ℚ)
    (ha : a ∈ l) (hb : b ∈ l) (hab : a.1 < b.1) : List.Sublist [a, b] l := by
  induction l with
  | nil => exact absurd ha (List.not_mem_nil a)
  | cons x xs ih =>
    rw [List.map_cons] at hinc
    obtain ⟨hx, htail⟩ := List.pairwise_cons.mp hinc
    rcases List.mem_cons.mp ha with rfl | haxs
    · have hbxs : b ∈ xs := by
        rcases List.mem_cons.mp hb with rfl | h
        · exfalso
          omega
        · exact h
      exact (List.singleton_sublist.mpr hbxs).cons₂ a
    · rcases List.mem_cons.mp hb with rfl | hbxs
      · exfalso
        have := hx a.1 (List.mem_map_of_mem Prod.fst haxs)
        omega
      · exact (ih htail haxs hbxs).cons x

theorem pair_sublist_getElem {α : Type} (x y : α) :
    ∀ L : List α, List.Sublist [x, y] L →
      ∃ p q, ∃ (hp : p < L.length) (hq : q < L.length),
        p < q ∧ L.get ⟨p, hp⟩ = x ∧ L.get ⟨q, hq⟩ = y := by
  intro L
  induction L with
  | nil => intro h; exact absurd h (by simp)
  | cons z L' ih =>
    intro h
    cases h with
    | cons a h' =>
      obtain ⟨p, q, hp, hq, hpq, hgp, hgq⟩ := ih h'
      exact ⟨p + 1, q + 1, by simp only [List.length_cons]; omega,
        by simp only [List.length_cons]; omega, by omega, hgp, hgq⟩
    | cons₂ a h' =>
      have hy : y ∈ L' := List.singleton_sublist.mp h'
      obtain ⟨q, hq, hgq⟩ := List.mem_iff_get.mp hy
      exact ⟨0, q + 1, by simp, by simpa using q.isLt, by omega, rfl,
        by simpa using hgq⟩

theorem pySortDesc_pairwise (l : List (ℕ × ℚ))
    (hinc : (l.map Prod.fst).Pairwise (· < ·)) :
    (pySortDesc l).Pairwise
      (fun x y => y.2 < x.2 ∨ (x.2 = y.2 ∧ x.1 < y.1)) := by
  have htrans : ∀ a b c : ℕ × ℚ, (fun a b => decide (b.2 ≤ a.2)) a b →
      (fun a b => decide (b.2 ≤ a.2)) b c → (fun a b => decide (b.2 ≤ a.2)) a c := by
    intro a b c h1 h2
    simp only [decide_eq_true_eq] at h1 h2 ⊢
    exact le_trans h2 h1
  have htotal : ∀ a b : ℕ × ℚ, ((fun a b => decide (b.2 ≤ a.2)) a b ||
      (fun a b => decide (b.2 ≤ a.2)) b a) = true := by
    intro a b
    simp only [Bool.or_eq_true, decide_eq_true_eq]
    exact le_total b.2 a.2
  have hsorted := List.sorted_mergeSort htrans htotal l
  have hperm : List.Perm (pySortDesc l) l := List.mergeSort_perm l _
  have hndfst : ((pySortDesc l).map Prod.fst).Nodup := by
    have h1 : (l.map Prod.fst).Nodup := hinc.imp (fun h => ne_of_lt h)
    exact ((hperm.map Prod.fst).nodup_iff).mpr h1
  have hnd : (pySortDesc l).Nodup := hndfst.of_map Prod.fst
  rw [List.pairwise_iff_getElem]
  intro i j hi hj hij
  have hle : (pySortDesc l)[j].2 ≤ (pySortDesc l)[i].2 := by
    have := List.pairwise_iff_getElem.mp hsorted i j hi hj hij
    simpa using this
  rcases lt_or_eq_of_le hle with hlt | heq
  · exact Or.inl hlt
  · refine Or.inr ⟨heq.symm, ?_⟩
    have hfne : (pySortDesc l)[i].1 ≠ (pySortDesc l)[j].1 := by
      intro hfeq
      have h1 : ((pySortDesc l).map Prod.fst).get
          ⟨i, by simpa using hi⟩ = ((pySortDesc l).map Prod.fst).get
          ⟨j, by simpa using hj⟩ := by
        simp only [List.get_eq_getElem, List.getElem_map]
        exact hfeq
      have := (List.Nodup.get_inj_iff hndfst).mp h1
      simp only [Fin.mk.injEq] at this
      omega
    by_contra hnot
    have hba : (pySortDesc l)[j].1 < (pySortDesc l)[i].1 := by omega
    have hmem_i : (pySortDesc l)[i] ∈ l := hperm.mem_iff.mp (List.getElem_mem hi)
    have hmem_j : (pySortDesc l)[j] ∈ l := hperm.mem_iff.mp (List.getElem_mem hj)
    have hsub : List.Sublist [(pySortDesc l)[j], (pySortDesc l)[i]] l :=
      pairFstLt_sublist l hinc _ _ hmem_j hmem_i hba
    have hsub2 : List.Sublist [(pySortDesc l)[j], (pySortDesc l)[i]] (pySortDesc l) :=
      List.pair_sublist_mergeSort htrans htotal (by simp [heq]) hsub
    obtain ⟨p, q, hp, hq, hpq, hgp, hgq⟩ :=
      pair_sublist_getElem _ _ (pySortDesc l) hsub2
    have hpj : p = j := by
      have h1 := (List.Nodup.get_inj_iff hnd).mp
        (show (pySortDesc l).get ⟨p, hp⟩ = (pySortDesc l).get ⟨j, hj⟩ by
          rw [hgp]; simp)
      simpa using h1
    have hqi : q = i := by
      have h1 := (List.Nodup.get_inj_iff hnd).mp
        (show (pySortDesc l).get ⟨q, hq⟩ = (pySortDesc l).get ⟨i, hi⟩ by
          rw [hgq]; simp)
      simpa using h1
    omega

end Index

namespace Index

/-- C2: for a non-empty corpus, `HybridIndex.query` returns at most `top_k`
entries; each ranked entry's score is `(1-alpha) * (bm25 score / max bm25
score, guarding division by zero) + alpha * dense cosine similarity` of its
corpus index; the ranking is by descending score with ties broken by the lower
internal corpus index; and the returned `Retrieved` records are exactly the
ranked `(index, score)` pairs mapped onto ids/texts/metas. -/
theorem C2_hybrid_query {μ : Type} [Inhabited μ] (idx : HybridIndex μ)
    (q : String) (top_k : ℕ) (alpha : ℚ)
    (hne : idx.getScores (pyLowerSplit q) ≠ []) :
    (query idx q top_k alpha).length ≤ top_k ∧
    (∀ p ∈ queryRanked idx q top_k alpha,
      p.1 < (idx.getScores (pyLowerSplit q)).length ∧
      p.2 = (1 - alpha) *
          ((idx.getScores (pyLowerSplit q)).getD p.1 0 /
            (if pyMax (idx.getScores (pyLowerSplit q)) = 0 then 1
             else pyMax (idx.getScores (pyLowerSplit q)))) +
        alpha * ((idx.embeddings.map (_cosine (idx.embedQuery q))).getD p.1 0)) ∧
    (queryRanked idx q top_k alpha).Pairwise
      (fun x y => y.2 < x.2 ∨ (x.2 = y.2 ∧ x.1 < y.1)) ∧
    query idx q top_k alpha = (queryRanked idx q top_k alpha).map
      (fun p => ⟨idx.ids.getD p.1 "", idx.texts.getD p.1 "", p.2,
        idx.metas.getD p.1 default⟩) := by
  have hqr : queryRanked idx q top_k alpha =
      (pySortDesc (((idx.getScores (pyLowerSplit q)).zip
        (idx.embeddings.map (_cosine (idx.embedQuery q)))).enum.map
        (fun p => (p.1, (1 - alpha) *
          (p.2.1 / (if pyMax (idx.getScores (pyLowerSplit q)) = 0 then 1
                    else pyMax (idx.getScores (pyLowerSplit q)))) +
          alpha * p.2.2)))).take top_k := rfl
  have hfst : ((((idx.getScores (pyLowerSplit q)).zip
      (idx.embeddings.map (_cosine (idx.embedQuery q)))).enum.map
      (fun p => (p.1, (1 - alpha) *
        (p.2.1 / (if pyMax (idx.getScores (pyLowerSplit q)) = 0 then 1
                  else pyMax (idx.getScores (pyLowerSplit q)))) +
        alpha * p.2.2))).map Prod.fst).Pairwise (· < ·) := by
    rw [List.map_map]
    have hcomp : (Prod.fst ∘ (fun p : ℕ × ℚ × ℚ => (p.1, (1 - alpha) *
        (p.2.1 / (if pyMax (idx.getScores (pyLowerSplit q)) = 0 then 1
                  else pyMax (idx.getScores (pyLowerSplit q)))) +
        alpha * p.2.2))) = Prod.fst := by
      funext p
      rfl
    rw [hcomp, List.enum_map_fst]
    exact List.pairwise_lt_range _
  refine ⟨?_, ?_, ?_, ?_⟩
  · rw [query, List.length_map, hqr]
    exact List.length_take_le _ _
  · intro p hp
    rw [hqr] at hp
    have hp2 := List.mem_of_mem_take hp
    rw [pySortDesc, List.mem_mergeSort] at hp2
    obtain ⟨j, hj, hjeq⟩ := List.mem_iff_getElem.mp hp2
    have hjz : j < (((idx.getScores (pyLowerSplit q)).zip
        (idx.embeddings.map (_cosine (idx.embedQuery q))))).length := by
      simpa using hj
    have hjb : j < (idx.getScores (pyLowerSplit q)).length := by
      rw [List.length_zip] at hjz
      omega
    have hjd : j < (idx.embeddings.map (_cosine (idx.embedQuery q))).length := by
      rw [List.length_zip] at hjz
      omega
    rw [List.getElem_map, List.getElem_enum] at hjeq
    have hzip : (((idx.getScores (pyLowerSplit q)).zip
        (idx.embeddings.map (_cosine (idx.embedQuery q))))).get ⟨j, hjz⟩ =
        ((idx.getScores (pyLowerSplit q)).get ⟨j, hjb⟩,
         (idx.embeddings.map (_cosine (idx.embedQuery q))).get ⟨j, hjd⟩) := by
      simp only [List.get_eq_getElem]
      exact List.getElem_zip
    rw [List.get_eq_getElem] at hzip
    rw [hzip] at hjeq
    rw [← hjeq]
    refine ⟨hjb, ?_⟩
    simp only [List.get_eq_getElem]
    rw [List.getD_eq_getElem _ _ hjb, List.getD_eq_getElem _ _ hjd]
  · rw [hqr]
    exact (pySortDesc_pairwise _ hfst).sublist (List.take_sublist _ _)
  · rfl

end Index

namespace Index

/-- Witness for C2 on a concrete two-chunk index. -/
theorem C2_hybrid_query_witness :
    (query demoIndex "x" 5 (1/2)).length ≤ 5 ∧
    (queryRanked demoIndex "x" 5 (1/2)).Pairwise
      (fun x y => y.2 < x.2 ∨ (x.2 = y.2 ∧ x.1 < y.1)) :=
  ⟨(C2_hybrid_query demoIndex "x" 5 (1/2) (by decide)).1,
   (C2_hybrid_query demoIndex "x" 5 (1/2) (by decide)).2.2.1⟩

end Index
